import Mathlib

/-!
Verification of the `csig` C-signature indexing and search tool.

This file gives a shallow embedding, in Lean 4, of the parts of the `csig`
repository that the specification's claims are about:

* `csig_core.py` — `levenshtein_distance`, `parse_query`,
  `_build_fake_declaration` and the `Query` data type;
* `csig.py` — `rank_candidates`;
* `csig_db.py` — the sqlite store (`files` / `functions` tables) and the
  operations `get_or_create_file`, `replace_functions_for_file`,
  `mark_file_parsed`, `mark_file_error`, `iter_file_states` and
  `fetch_candidates`;
* `csig_indexer.py` — the discovery / worker / writer pipeline and the
  progress tracker.

Python strings are modelled as lists of characters (`PyStr`), Python floats
that are only ever stored and compared for equality (mtimes, timestamps) as
integers, and the sqlite tables as in-memory lists of records.  External
collaborators (the libclang parser and normalizer) are taken as opaque
function parameters, as the specification declares them out of scope.
-/

/-- A Python `str`, modelled as its list of Unicode code points. -/
abbrev PyStr := List Char

/-- Model of Python `str.lower` on a single character, faithful on the
Basic Latin (ASCII) and Latin-1 ranges that the tool manipulates:
`A`-`Z` and `À`-`Þ` (except `×`) map 32 code points up; everything else is
left unchanged. -/
def pyLowerChar (c : Char) : Char :=
  if 'A' ≤ c ∧ c ≤ 'Z' then Char.ofNat (c.toNat + 32)
  else if 0xC0 ≤ c.toNat ∧ c.toNat ≤ 0xDE ∧ c.toNat ≠ 0xD7 then Char.ofNat (c.toNat + 32)
  else c

/-- UTF-8 encoding of one code point, as a list of byte values.
(`errors="ignore"` in the Python code only drops unpaired surrogates, which
`Char` cannot represent, so the encoding is total here.) -/
def utf8Encode (c : Char) : List Nat :=
  let n := c.toNat
  if n < 0x80 then [n]
  else if n < 0x800 then [0xC0 + n / 64, 0x80 + n % 64]
  else if n < 0x10000 then [0xE0 + n / 4096, 0x80 + n / 64 % 64, 0x80 + n % 64]
  else [0xF0 + n / 262144, 0x80 + n / 4096 % 64, 0x80 + n / 64 % 64, 0x80 + n % 64]

/-- `s.lower().encode("utf-8", errors="ignore")` from `levenshtein_distance`:
the byte sequence a Python string is reduced to before the edit-distance
dynamic programming runs. -/
def pyStrBytes (s : PyStr) : List Nat :=
  (s.map pyLowerChar).flatMap utf8Encode

/-- Reference (recursive) Levenshtein distance over byte lists with unit
costs; the dynamic program in `levenshtein_distance` is proved equal to it. -/
def levRec : List Nat → List Nat → Nat
  | [], ys => ys.length
  | x :: xs, [] => (x :: xs).length
  | x :: xs, y :: ys =>
      min (levRec xs (y :: ys) + 1)
        (min (levRec (x :: xs) ys + 1) (levRec xs ys + if x = y then 0 else 1))
termination_by xs ys => xs.length + ys.length
decreasing_by all_goals simp_arith

/-- The inner `for j in range(1, m + 1)` loop of `levenshtein_distance`:
given the previous row (`p0 :: p1 :: ps`), the byte `ai` of `a`, the value
`left` already written at `cur[j-1]`, and the remaining bytes of `b`,
produce the entries `cur[1..]` of the current row. -/
def levRowGo (ai : Nat) : Nat → List Nat → List Nat → List Nat
  | left, bj :: bs, p0 :: p1 :: ps =>
      let cost := if ai = bj then 0 else 1
      let c := min (left + 1) (min (p1 + 1) (p0 + cost))
      c :: levRowGo ai c bs (p1 :: ps)
  | _, _, _ => []

/-- The outer `for i in range(1, n + 1)` loop of `levenshtein_distance`:
fold each byte of `a` over the rolling row, starting from row `i - 1`.  The
head `i` of each new row is the `cur[0] = i` assignment. -/
def levRows (b : List Nat) : List Nat → Nat → List Nat → List Nat
  | [], _, prev => prev
  | ai :: rest, i, prev => levRows b rest (i + 1) (i :: levRowGo ai i b prev)

/-- `levenshtein_distance(a, b)` from `csig_core.py`: lowercase both strings,
encode as UTF-8 bytes, then run the two-row dynamic program and return
`prev[m]`. -/
def levenshtein_distance (a b : PyStr) : Nat :=
  let ab := pyStrBytes a
  let bb := pyStrBytes b
  let n := ab.length
  let m := bb.length
  if n = 0 then m
  else if m = 0 then n
  else (levRows bb ab 1 (List.range (m + 1))).getD m 0

@[simp] theorem levRec_nil_left (ys : List Nat) : levRec [] ys = ys.length := by
  simp [levRec]

@[simp] theorem levRec_nil_right (xs : List Nat) : levRec xs [] = xs.length := by
  cases xs <;> simp [levRec]

theorem levRec_cons_cons (x y : Nat) (xs ys : List Nat) :
    levRec (x :: xs) (y :: ys) =
      min (levRec xs (y :: ys) + 1)
        (min (levRec (x :: xs) ys + 1) (levRec xs ys + if x = y then 0 else 1)) := by
  simp [levRec]

set_option maxHeartbeats 1000000 in
/-- Pure arithmetic: the two association orders in which the dynamic program
and the recursive definition combine the nine sub-distances of a
`(snoc, snoc)` step agree. -/
theorem min_nine_exchange (b1 b2 b3 b4 b5 b6 b7 b8 b9 cab cxy : Nat) :
    min (min (b1 + 1) (min (b2 + 1) (b3 + cxy)) + 1)
      (min (min (b4 + 1) (min (b5 + 1) (b6 + cxy)) + 1)
        (min (b7 + 1) (min (b8 + 1) (b9 + cxy)) + cab))
    = min (min (b1 + 1) (min (b4 + 1) (b7 + cab)) + 1)
      (min (min (b2 + 1) (min (b5 + 1) (b8 + cab)) + 1)
        (min (b3 + 1) (min (b6 + 1) (b9 + cab)) + cxy)) := by
  refine Nat.le_antisymm ?_ ?_ <;>
    simp only [le_min_iff, min_le_iff, Nat.add_min_add_right] <;> omega

/-- The "snoc" recurrence for Levenshtein distance: peeling the *last*
characters instead of the first ones.  This is the recurrence the rolling-row
dynamic program follows, prefix by prefix. -/
theorem levRec_snoc (x y : Nat) (u : List Nat) : ∀ v : List Nat,
    levRec (u ++ [x]) (v ++ [y]) =
      min (levRec u (v ++ [y]) + 1)
        (min (levRec (u ++ [x]) v + 1) (levRec u v + if x = y then 0 else 1)) := by
  induction u with
  | nil =>
    intro v
    induction v with
    | nil => simp [levRec_cons_cons]
    | cons b v' ihv =>
      simp only [List.nil_append, List.cons_append] at ihv ⊢
      have hl : levRec [x] (b :: (v' ++ [y])) =
          min (levRec [] (b :: (v' ++ [y])) + 1)
            (min (levRec [x] (v' ++ [y]) + 1)
              (levRec [] (v' ++ [y]) + if x = b then 0 else 1)) :=
        levRec_cons_cons x b [] (v' ++ [y])
      have hxb : levRec [x] (b :: v') =
          min (levRec [] (b :: v') + 1)
            (min (levRec [x] v' + 1) (levRec [] v' + if x = b then 0 else 1)) :=
        levRec_cons_cons x b [] v'
      rw [hl, ihv, hxb]
      simp only [levRec_nil_left, List.length_append, List.length_cons, List.length_nil]
      omega
  | cons a u' ihu =>
    intro v
    induction v with
    | nil =>
      simp only [List.nil_append, List.cons_append]
      have hl : levRec (a :: (u' ++ [x])) [y] =
          min (levRec (u' ++ [x]) [y] + 1)
            (min (levRec (a :: (u' ++ [x])) [] + 1)
              (levRec (u' ++ [x]) [] + if a = y then 0 else 1)) :=
        levRec_cons_cons a y (u' ++ [x]) []
      have har : levRec (a :: u') [y] =
          min (levRec u' [y] + 1)
            (min (levRec (a :: u') [] + 1) (levRec u' [] + if a = y then 0 else 1)) :=
        levRec_cons_cons a y u' []
      have hu := ihu []
      simp only [List.nil_append] at hu
      rw [hl, hu, har]
      simp only [levRec_nil_right, List.length_append, List.length_cons, List.length_nil]
      omega
    | cons b v' ihv =>
      simp only [List.cons_append] at ihv ⊢
      have e1 : levRec (a :: (u' ++ [x])) (b :: (v' ++ [y])) =
          min (levRec (u' ++ [x]) (b :: (v' ++ [y])) + 1)
            (min (levRec (a :: (u' ++ [x])) (v' ++ [y]) + 1)
              (levRec (u' ++ [x]) (v' ++ [y]) + if a = b then 0 else 1)) :=
        levRec_cons_cons a b (u' ++ [x]) (v' ++ [y])
      have e2 := ihu (b :: v')
      simp only [List.cons_append] at e2
      have e3 := ihu v'
      have y1 : levRec (a :: u') (b :: (v' ++ [y])) =
          min (levRec u' (b :: (v' ++ [y])) + 1)
            (min (levRec (a :: u') (v' ++ [y]) + 1)
              (levRec u' (v' ++ [y]) + if a = b then 0 else 1)) :=
        levRec_cons_cons a b u' (v' ++ [y])
      have y2 : levRec (a :: (u' ++ [x])) (b :: v') =
          min (levRec (u' ++ [x]) (b :: v') + 1)
            (min (levRec (a :: (u' ++ [x])) v' + 1)
              (levRec (u' ++ [x]) v' + if a = b then 0 else 1)) :=
        levRec_cons_cons a b (u' ++ [x]) v'
      have y3 : levRec (a :: u') (b :: v') =
          min (levRec u' (b :: v') + 1)
            (min (levRec (a :: u') v' + 1) (levRec u' v' + if a = b then 0 else 1)) :=
        levRec_cons_cons a b u' v'
      rw [e1, e2, ihv, e3, y1, y2, y3]
      exact min_nine_exchange _ _ _ _ _ _ _ _ _ _ _

/-- Specification row of the dynamic program: the distances from `u` to every
prefix of `c ++ bs` extending `c`. -/
def specRow (u : List Nat) : List Nat → List Nat → List Nat
  | c, [] => [levRec u c]
  | c, b :: bs => levRec u c :: specRow u (c ++ [b]) bs

theorem specRow_cons_eq (u c bs : List Nat) :
    specRow u c bs = levRec u c :: (specRow u c bs).tail := by
  cases bs <;> rfl

theorem specRow_nil_u : ∀ (bs c : List Nat),
    specRow [] c bs = List.range' c.length (bs.length + 1) := by
  intro bs
  induction bs with
  | nil => intro c; simp [specRow]
  | cons b bs' ih =>
    intro c
    have := ih (c ++ [b])
    simp only [List.length_append, List.length_cons, List.length_nil] at this
    simp [specRow, this, List.range'_succ]

theorem specRow_getD (u : List Nat) : ∀ (bs c : List Nat),
    (specRow u c bs).getD bs.length 0 = levRec u (c ++ bs) := by
  intro bs
  induction bs with
  | nil => intro c; simp [specRow]
  | cons b bs' ih =>
    intro c
    have h := ih (c ++ [b])
    rw [List.append_assoc] at h
    simpa [specRow] using h

theorem levRowGo_spec (ai : Nat) (u : List Nat) : ∀ (bs c : List Nat),
    levRowGo ai (levRec (u ++ [ai]) c) bs (specRow u c bs) =
      (specRow (u ++ [ai]) c bs).tail := by
  intro bs
  induction bs with
  | nil => intro c; simp [specRow, levRowGo]
  | cons b bs' ih =>
    intro c
    have hsnoc :
        min (levRec (u ++ [ai]) c + 1)
          (min (levRec u (c ++ [b]) + 1) (levRec u c + if ai = b then 0 else 1)) =
        levRec (u ++ [ai]) (c ++ [b]) := by
      rw [levRec_snoc ai b u c]; omega
    simp only [specRow, List.tail_cons]
    rw [specRow_cons_eq u (c ++ [b]) bs']
    simp only [levRowGo]
    rw [hsnoc, ← specRow_cons_eq u (c ++ [b]) bs', ih (c ++ [b])]
    exact (specRow_cons_eq (u ++ [ai]) (c ++ [b]) bs').symm

theorem levRows_spec (b : List Nat) : ∀ (as u : List Nat),
    levRows b as (u.length + 1) (specRow u [] b) = specRow (u ++ as) [] b := by
  intro as
  induction as with
  | nil => intro u; simp [levRows]
  | cons ai rest ih =>
    intro u
    have hhead : levRec (u ++ [ai]) [] = u.length + 1 := by simp
    have hrow : (u.length + 1) :: levRowGo ai (u.length + 1) b (specRow u [] b) =
        specRow (u ++ [ai]) [] b := by
      rw [← hhead, levRowGo_spec ai u b []]
      exact (specRow_cons_eq (u ++ [ai]) [] b).symm
    have hlen : (u ++ [ai]).length + 1 = u.length + 1 + 1 := by simp
    calc levRows b (ai :: rest) (u.length + 1) (specRow u [] b)
        = levRows b rest (u.length + 1 + 1)
            ((u.length + 1) :: levRowGo ai (u.length + 1) b (specRow u [] b)) := by
          rw [levRows]
      _ = levRows b rest ((u ++ [ai]).length + 1) (specRow (u ++ [ai]) [] b) := by
          rw [hrow, hlen]
      _ = specRow ((u ++ [ai]) ++ rest) [] b := ih (u ++ [ai])
      _ = specRow (u ++ ai :: rest) [] b := by
          rw [List.append_assoc]; rfl

/-- The dynamic program in `levenshtein_distance` computes the recursive
Levenshtein distance of the two lowercased UTF-8 byte sequences. -/
theorem levenshtein_eq_levRec (a b : PyStr) :
    levenshtein_distance a b = levRec (pyStrBytes a) (pyStrBytes b) := by
  unfold levenshtein_distance
  by_cases hA : (pyStrBytes a).length = 0
  · rw [List.length_eq_zero] at hA
    simp [hA]
  · rw [if_neg hA]
    by_cases hB : (pyStrBytes b).length = 0
    · rw [List.length_eq_zero] at hB
      simp [hB]
    · rw [if_neg hB]
      have hr : List.range ((pyStrBytes b).length + 1) = specRow [] [] (pyStrBytes b) := by
        rw [specRow_nil_u, List.range_eq_range']
        rfl
      have hrows := levRows_spec (pyStrBytes b) (pyStrBytes a) []
      simp only [List.length_nil, List.nil_append] at hrows
      rw [hr, hrows]
      have := specRow_getD (pyStrBytes a) (pyStrBytes b) []
      simpa using this

theorem levRec_comm : ∀ xs ys : List Nat, levRec xs ys = levRec ys xs := by
  intro xs
  induction xs with
  | nil => intro ys; simp
  | cons x xs' ihx =>
    intro ys
    induction ys with
    | nil => simp
    | cons y ys' ihy =>
      rw [levRec_cons_cons, levRec_cons_cons y x ys' xs']
      rw [ihx (y :: ys'), ihx ys', ihy]
      have hc : (if x = y then 0 else 1) = (if y = x then 0 else 1) := by
        by_cases h : x = y <;> simp [h, Ne.symm, eq_comm]
      rw [hc]
      omega

theorem levRec_self : ∀ xs : List Nat, levRec xs xs = 0 := by
  intro xs
  induction xs with
  | nil => simp
  | cons x xs' ih =>
    rw [levRec_cons_cons]
    simp [ih]

/-- C9: `levenshtein_distance` is symmetric, and the distance from any
string to itself is zero. -/
theorem levenshtein_distance_symm_self (a b : PyStr) :
    levenshtein_distance a b = levenshtein_distance b a ∧
      levenshtein_distance a a = 0 := by
  constructor
  · rw [levenshtein_eq_levRec, levenshtein_eq_levRec]
    exact levRec_comm _ _
  · rw [levenshtein_eq_levRec]
    exact levRec_self _

/-- C5 (counterexample): for the one-character string `"é"` (code point
233), `levenshtein_distance("", b)` is `2` — the length of the UTF-8
encoding — while `len(b)` is `1`. -/
theorem levenshtein_empty_left_counterexample :
    ¬ (levenshtein_distance [] [Char.ofNat 233] = ([Char.ofNat 233] : PyStr).length) := by
  decide

/-- C5 (amended): for every string `b`, `levenshtein_distance("", b)` equals
the length of the UTF-8 byte encoding of `b.lower()` (which coincides with
`len(b)` exactly when that encoding is one byte per character, e.g. for
ASCII strings). -/
theorem levenshtein_empty_left (b : PyStr) :
    levenshtein_distance [] b = (pyStrBytes b).length := by
  rfl

/-- The `Query` dataclass from `csig_core.py`. -/
structure Query where
  name : Option PyStr
  normalised_signature : Option PyStr
deriving DecidableEq

/-- A candidate row as returned by `fetch_candidates` in `csig_db.py` (the
Python dict with keys `id`, `path`, `name`, `return_type`, `params`,
`signature_norm`, `line`, `column`).  `params` holds the structured value
whose `json.dumps`/`json.loads` round-trip is modelled as the identity. -/
structure Candidate where
  id : Nat
  path : PyStr
  name : PyStr
  return_type : PyStr
  params : List (PyStr × Option PyStr)
  signature_norm : PyStr
  line : Int
  column : Int
deriving DecidableEq

/-- Python truthiness of an `Optional[str]`: `None` and `""` are falsy. -/
def pyTruthyStr : Option PyStr → Bool
  | none => false
  | some s => !s.isEmpty

/-- `str.lower`, character by character. -/
def pyLowerStr (s : PyStr) : PyStr := s.map pyLowerChar

/-- The score accumulated for one row in `rank_candidates`: name distance
(when the query has a truthy name) plus signature distance (when the query
has a truthy normalised signature). -/
def rowScore (q : Query) (row : Candidate) : Nat :=
  (if pyTruthyStr q.name then levenshtein_distance row.name (q.name.getD []) else 0) +
    (if pyTruthyStr q.normalised_signature then
      levenshtein_distance row.signature_norm (q.normalised_signature.getD []) else 0)

/-- The comparison key used by the `scored.sort(key=...)` call in
`rank_candidates`: the Python tuple
`(score, name.lower(), path.lower(), line, column)` compared
lexicographically. -/
abbrev RankKey := Lex (Nat × Lex (PyStr × Lex (PyStr × Lex (Int × Int))))

def rankKey (item : Nat × Candidate) : RankKey :=
  toLex (item.1, toLex (pyLowerStr item.2.name,
    toLex (pyLowerStr item.2.path, toLex (item.2.line, item.2.column))))

/-- The sort order of `scored.sort`: non-strict comparison of rank keys.
(Python's `list.sort` is a stable sort; a stable sort by a total preorder
has a unique result, which `List.insertionSort` computes.) -/
def rankLe (i1 i2 : Nat × Candidate) : Prop := rankKey i1 ≤ rankKey i2

instance : DecidableRel rankLe :=
  fun a b => inferInstanceAs (Decidable (rankKey a ≤ rankKey b))

instance : IsTotal (Nat × Candidate) rankLe :=
  ⟨fun a b => le_total (rankKey a) (rankKey b)⟩

instance : IsTrans (Nat × Candidate) rankLe :=
  ⟨fun _ _ _ h1 h2 => le_trans h1 h2⟩

/-- `rank_candidates(candidates, query, top)` from `csig.py`: score every
row, stable-sort by `(score, name-lower, path-lower, line, column)`, and
return the rows of the first `max(0, top)` entries. -/
def rank_candidates (candidates : List Candidate) (query : Query) (top : Int) :
    List Candidate :=
  let scored := candidates.map (fun row => (rowScore query row, row))
  let sorted := List.insertionSort rankLe scored
  (sorted.take (max 0 top).toNat).map Prod.snd

/-- The key of a candidate as it is scored in `rank_candidates`. -/
def candKey (q : Query) (c : Candidate) : RankKey := rankKey (rowScore q c, c)

/-- The candidate ordering induced by `candKey`. -/
def candLe (q : Query) (a b : Candidate) : Prop := candKey q a ≤ candKey q b

/-- C4: `rank_candidates` returns the candidates sorted ascending by the
tuple `(score, lowercased name, lowercased path, line, column)`, truncated
to the first `top` entries (fewer when the candidate set is smaller), and
repeated application to the same input yields identical output. -/
theorem rank_candidates_sorted_take (cs : List Candidate) (q : Query) (top : Int)
    (h : 0 ≤ top) :
    (∃ full : List Candidate,
        List.Perm full cs ∧ List.Sorted (candLe q) full ∧
        rank_candidates cs q top = full.take top.toNat ∧
        (rank_candidates cs q top).length = min top.toNat cs.length) ∧
    rank_candidates cs q top = rank_candidates cs q top := by
  refine ⟨?_, rfl⟩
  refine ⟨(List.insertionSort rankLe
    (cs.map fun row => (rowScore q row, row))).map Prod.snd, ?_, ?_, ?_, ?_⟩
  · have hp := List.perm_insertionSort rankLe (cs.map fun row => (rowScore q row, row))
    have h2 := hp.map Prod.snd
    rw [List.map_map] at h2
    simpa [Function.comp_def] using h2
  · have hs := List.sorted_insertionSort rankLe (cs.map fun row => (rowScore q row, row))
    have hmem : ∀ i ∈ List.insertionSort rankLe (cs.map fun row => (rowScore q row, row)),
        i.1 = rowScore q i.2 := by
      intro i hi
      have hi2 : i ∈ cs.map fun row => (rowScore q row, row) :=
        (List.mem_insertionSort rankLe).mp hi
      obtain ⟨row, _, rfl⟩ := List.mem_map.mp hi2
      rfl
    have h2 : List.Pairwise (fun i1 i2 => candLe q i1.2 i2.2)
        (List.insertionSort rankLe (cs.map fun row => (rowScore q row, row))) := by
      refine hs.imp_of_mem ?_
      intro a b ha hb hr
      have ea : (rowScore q a.2, a.2) = a := by rw [← hmem a ha]
      have eb : (rowScore q b.2, b.2) = b := by rw [← hmem b hb]
      simp only [candLe, candKey, ea, eb]
      exact hr
    exact List.pairwise_map.mpr h2
  · simp only [rank_candidates]
    rw [max_eq_right h, List.map_take]
  · simp only [rank_candidates]
    rw [max_eq_right h]
    simp [List.length_take, List.length_insertionSort, List.length_map]

/-- Witness for `rank_candidates_sorted_take` at a concrete input. -/
theorem rank_candidates_sorted_take_witness :
    (0 : Int) ≤ 2 ∧
      ((∃ full : List Candidate,
          List.Perm full [⟨0, ['b'], ['g'], ['i'], [], ['s'], 1, 1⟩,
            ⟨1, ['a'], ['f'], ['i'], [], ['s'], 2, 1⟩] ∧
          List.Sorted (candLe ⟨some ['f'], none⟩) full ∧
          rank_candidates [⟨0, ['b'], ['g'], ['i'], [], ['s'], 1, 1⟩,
              ⟨1, ['a'], ['f'], ['i'], [], ['s'], 2, 1⟩] ⟨some ['f'], none⟩ 2 =
            full.take (2 : Int).toNat ∧
          (rank_candidates [⟨0, ['b'], ['g'], ['i'], [], ['s'], 1, 1⟩,
              ⟨1, ['a'], ['f'], ['i'], [], ['s'], 2, 1⟩] ⟨some ['f'], none⟩ 2).length =
            min (2 : Int).toNat
              ([(⟨0, ['b'], ['g'], ['i'], [], ['s'], 1, 1⟩ : Candidate),
                ⟨1, ['a'], ['f'], ['i'], [], ['s'], 2, 1⟩] : List Candidate).length) ∧
        rank_candidates [⟨0, ['b'], ['g'], ['i'], [], ['s'], 1, 1⟩,
            ⟨1, ['a'], ['f'], ['i'], [], ['s'], 2, 1⟩] ⟨some ['f'], none⟩ 2 =
          rank_candidates [⟨0, ['b'], ['g'], ['i'], [], ['s'], 1, 1⟩,
            ⟨1, ['a'], ['f'], ['i'], [], ['s'], 2, 1⟩] ⟨some ['f'], none⟩ 2) :=
  ⟨by decide,
    rank_candidates_sorted_take
      [⟨0, ['b'], ['g'], ['i'], [], ['s'], 1, 1⟩,
        ⟨1, ['a'], ['f'], ['i'], [], ['s'], 2, 1⟩] ⟨some ['f'], none⟩ 2 (by decide)⟩

/-- Python whitespace for `str.strip` / `\s` (ASCII range): space, tab,
newline, carriage return, vertical tab, form feed. -/
def pyIsSpace (c : Char) : Bool :=
  c == ' ' || c == '\t' || c == '\n' || c == '\r' || c == Char.ofNat 11 || c == Char.ofNat 12

/-- `str.lstrip()`. -/
def pyLstrip (s : PyStr) : PyStr := s.dropWhile pyIsSpace

/-- `str.rstrip()`. -/
def pyRstrip (s : PyStr) : PyStr := (s.reverse.dropWhile pyIsSpace).reverse

/-- `str.strip()`. -/
def pyStrip (s : PyStr) : PyStr := pyLstrip (pyRstrip s)

/-- `needle in hay` on Python strings (contiguous substring test). -/
def hasSubstr (needle : PyStr) : PyStr → Bool
  | [] => needle.isEmpty
  | c :: t => needle.isPrefixOf (c :: t) || hasSubstr needle t

/-- `hay.split(sep, 1)`: split on the first occurrence of `sep`; `none` when
`sep` does not occur (Python's `split` would return a single chunk, but
`parse_query` only splits after an `in` test). -/
def pySplitOnce (sep : PyStr) : PyStr → Option (PyStr × PyStr)
  | [] => if sep.isEmpty then some ([], []) else none
  | c :: t =>
      if sep.isPrefixOf (c :: t) then some ([], (c :: t).drop sep.length)
      else (pySplitOnce sep t).map fun p => (c :: p.1, p.2)

/-- A `\w` word character of the Python `re` module, on the ASCII range the
tool's token streams use: letters, digits and underscore. -/
def isWordChar (c : Char) : Bool := c.isAlphanum || c == '_'

/-- Left word-boundary test for `\b` against the character preceding a
match (`none` at the start of the string). -/
def noWordBefore : Option Char → Bool
  | none => true
  | some c => !isWordChar c

/-- Right word-boundary test for `\b` against the rest of the string. -/
def noWordAfter : PyStr → Bool
  | [] => true
  | c :: _ => !isWordChar c

/-- `re.sub(r"\b__q__\b", "", s)`: remove every non-overlapping occurrence
of `__q__` that sits between word boundaries, scanning left to right.
`prev` is the character just before the current scan position. -/
def removeWordQ : Option Char → PyStr → PyStr
  | prev, '_' :: '_' :: 'q' :: '_' :: '_' :: rest =>
      if noWordBefore prev && noWordAfter rest then
        removeWordQ (some '_') rest
      else '_' :: removeWordQ (some '_') ('_' :: 'q' :: '_' :: '_' :: rest)
  | prev, c :: rest =>
      have : prev = prev := rfl
      c :: removeWordQ (some c) rest
  | _, [] => []

/-- `s.replace(" ;", "")`: drop every (non-overlapping, left-to-right)
occurrence of the two-character sequence `" ;"`. -/
def removeSpaceSemi : PyStr → PyStr
  | ' ' :: ';' :: rest => removeSpaceSemi rest
  | c :: rest => c :: removeSpaceSemi rest
  | [] => []

/-- `re.sub(r"\s+", " ", s)`, character by character: the flag records
whether the scan is inside a whitespace run, whose first character already
emitted the single replacement space. -/
def collapseWsGo : Bool → PyStr → PyStr
  | _, [] => []
  | inRun, c :: rest =>
      if pyIsSpace c then
        if inRun then collapseWsGo true rest else ' ' :: collapseWsGo true rest
      else c :: collapseWsGo false rest

/-- `re.sub(r"\s+", " ", s)`: collapse every whitespace run to one space. -/
def collapseWs (s : PyStr) : PyStr := collapseWsGo false s

/-- The post-processing `parse_query` applies to the normalizer's output:
strip the `__q__` placeholder, drop `" ;"` artifacts, strip, collapse
whitespace, strip again. -/
def postProcessNorm (norm : PyStr) : PyStr :=
  pyStrip (collapseWs (pyStrip (removeSpaceSemi (removeWordQ none norm))))

/-- `re.search(r"\w+\s*\(", s)` succeeds at the rest of the string: zero or
more whitespace characters and then `(`. -/
def wsThenParen : PyStr → Bool
  | [] => false
  | c :: rest => if c == '(' then true else if pyIsSpace c then wsThenParen rest else false

/-- `re.search(r"\w+\s*\(", s) is not None`: somewhere a word character is
followed (after optional whitespace) by an opening parenthesis. -/
def hasWordParen : PyStr → Bool
  | [] => false
  | c :: rest => (isWordChar c && wsThenParen rest) || hasWordParen rest

/-- `sig_part.rstrip().endswith(";")`. -/
def endsWithSemi (s : PyStr) : Bool :=
  match (pyRstrip s).getLast? with
  | some ';' => true
  | _ => false

/-- `sig_part if sig_part.rstrip().endswith(";") else f"{sig_part};"`. -/
def addSemiIfMissing (s : PyStr) : PyStr :=
  if endsWithSemi s then s else s ++ [';']

/-- Split at the first `(`: `re.search(r"\(", s)`, returning the text
before the parenthesis and the text from it on. -/
def splitAtFirstParen : PyStr → Option (PyStr × PyStr)
  | [] => none
  | '(' :: t => some ([], '(' :: t)
  | c :: t => (splitAtFirstParen t).map fun p => (c :: p.1, p.2)

/-- `_build_fake_declaration(sig_part)` from `csig_core.py`. -/
def buildFakeDeclaration (sig_part : PyStr) : PyStr :=
  if !hasSubstr ['('] sig_part || !hasSubstr [')'] sig_part then
    addSemiIfMissing sig_part
  else if hasSubstr ['_', '_', 'q', '_', '_'] sig_part then
    addSemiIfMissing sig_part
  else if hasWordParen sig_part && !hasSubstr [' ', '('] sig_part then
    addSemiIfMissing sig_part
  else
    match splitAtFirstParen sig_part with
    | none => addSemiIfMissing sig_part
    | some (before, fromParen) =>
        pyStrip before ++ [' ', '_', '_', 'q', '_', '_', ' '] ++ pyStrip fromParen ++ [';']

/-- `parse_query(query_str, index)` from `csig_core.py`.  The two
normalization collaborators (`normalise_signature` under the C dialect and
the C++ retry) are opaque parameters; `none` models a raised exception.
The overall `none` result models `parse_query` itself raising (both
dialects failed). -/
def parse_query (normC normCpp : PyStr → Option PyStr) (query_str : PyStr) : Option Query :=
  let parts :=
    match pySplitOnce [':', ':'] query_str with
    | some (name_part, sp) =>
        (if (pyStrip name_part).isEmpty then none else some (pyStrip name_part), pyStrip sp)
    | none => (none, pyStrip query_str)
  let name := parts.1
  let sig_part := parts.2
  if sig_part.isEmpty then some ⟨name, none⟩
  else
    let fake := buildFakeDeclaration sig_part
    let normed :=
      match normC fake with
      | some n => some n
      | none => normCpp fake
    match normed with
    | none => none
    | some n =>
        let norm := postProcessNorm n
        some ⟨name, if norm.isEmpty then none else some norm⟩

/-- C8: when the text after the `::` separator is blank, `parse_query`
returns the stripped name with no normalised signature, for *every*
normalization collaborator — i.e. without invoking normalization. -/
theorem parse_query_blank_signature (normC normCpp : PyStr → Option PyStr)
    (q name_part sig_part : PyStr)
    (hsplit : pySplitOnce [':', ':'] q = some (name_part, sig_part))
    (hblank : pyStrip sig_part = []) :
    parse_query normC normCpp q =
      some ⟨if (pyStrip name_part).isEmpty then none else some (pyStrip name_part), none⟩ := by
  simp [parse_query, hsplit, hblank]

/-- Witness for `parse_query_blank_signature` at the spec's example
`"foo ::   "`. -/
theorem parse_query_blank_signature_witness :
    pySplitOnce [':', ':'] ['f', 'o', 'o', ' ', ':', ':', ' ', ' ', ' '] =
        some (['f', 'o', 'o', ' '], [' ', ' ', ' ']) ∧
      pyStrip [' ', ' ', ' '] = [] ∧
      parse_query (fun _ => none) (fun _ => none)
          ['f', 'o', 'o', ' ', ':', ':', ' ', ' ', ' '] =
        some ⟨if (pyStrip ['f', 'o', 'o', ' ']).isEmpty then none
          else some (pyStrip ['f', 'o', 'o', ' ']), none⟩ :=
  ⟨by decide, by decide,
    parse_query_blank_signature (fun _ => none) (fun _ => none)
      ['f', 'o', 'o', ' ', ':', ':', ' ', ' ', ' '] ['f', 'o', 'o', ' '] [' ', ' ', ' ']
      (by decide) (by decide)⟩

/-- The `Location` dataclass from `csig_core.py`. -/
structure Location where
  file_name : PyStr
  line : Int
  column : Int
deriving DecidableEq

/-- The `Function` dataclass from `csig_core.py`. -/
structure Function where
  name : PyStr
  location : Location
  return_type : PyStr
  parameters : List (PyStr × Option PyStr)
  is_variadic : Bool
  signature_norm : Option PyStr
deriving DecidableEq

/-- One row of the `files` table (`csig_db.py` schema).  `mtime` and the
`parsed_at` timestamp are Python floats that the code only stores and
compares for equality, modelled as integers. -/
structure FileRow where
  id : Nat
  path : PyStr
  mtime : Int
  size : Int
  parsed_at : Option Int
  last_error : Option PyStr
deriving DecidableEq

/-- One row of the `functions` table.  `params` is the structured value of
the `params_json` column (the `json.dumps`/`json.loads` round-trip is
modelled as the identity). -/
structure FunctionRow where
  id : Nat
  file_id : Nat
  name : PyStr
  return_type : PyStr
  params : List (PyStr × Option PyStr)
  signature_norm : PyStr
  line : Int
  column : Int
deriving DecidableEq

/-- The sqlite database: both tables plus the `AUTOINCREMENT` counters. -/
structure Db where
  files : List FileRow
  functions : List FunctionRow
  nextFileId : Nat
  nextFunctionId : Nat
deriving DecidableEq

/-- `get_or_create_file(db, path, mtime, size)` from `csig_db.py`: update
`mtime`/`size` of the unique row with this path, or insert a fresh row with
`NULL` `parsed_at`/`last_error`; returns the row id. -/
def get_or_create_file (db : Db) (path : PyStr) (mtime size : Int) : Nat × Db :=
  match db.files.find? (fun r => r.path == path) with
  | some row =>
      (row.id,
        { db with
            files := db.files.map fun r =>
              if r.id = row.id then { r with mtime := mtime, size := size } else r })
  | none =>
      (db.nextFileId,
        { db with
            files := db.files ++ [⟨db.nextFileId, path, mtime, size, none, none⟩],
            nextFileId := db.nextFileId + 1 })

/-- The `signature_norm` fallback in `replace_functions_for_file`: when the
stored value is falsy, build `"{ret} ( {', '.join(types)} )"`, appending
`...` for variadic functions. -/
def fallbackSignature (f : Function) : PyStr :=
  let param_types :=
    (f.parameters.map fun p => p.1) ++ (if f.is_variadic then [['.', '.', '.']] else [])
  f.return_type ++ [' ', '(', ' '] ++ List.intercalate [',', ' '] param_types ++ [' ', ')']

/-- The insert payload of `replace_functions_for_file`: one `functions` row
per parsed `Function`, with consecutive `AUTOINCREMENT` ids from `nid`. -/
def mkFunctionRows (file_id : Nat) : Nat → List Function → List FunctionRow
  | _, [] => []
  | nid, f :: fs =>
      ⟨nid, file_id, f.name, f.return_type, f.parameters,
        (match f.signature_norm with
          | some s => if s.isEmpty then fallbackSignature f else s
          | none => fallbackSignature f),
        f.location.line, f.location.column⟩ :: mkFunctionRows file_id (nid + 1) fs

/-- `replace_functions_for_file(db, file_id, functions)` from `csig_db.py`:
delete every `functions` row of the file, then (unless the new set is
empty) insert the new rows. -/
def replace_functions_for_file (db : Db) (file_id : Nat) (functions : List Function) :
    Db :=
  let deleted := { db with functions := db.functions.filter fun f => !(f.file_id == file_id) }
  if functions.isEmpty then deleted
  else
    { deleted with
        functions := deleted.functions ++ mkFunctionRows file_id db.nextFunctionId functions,
        nextFunctionId := db.nextFunctionId + functions.length }

/-- `mark_file_parsed` from `csig_db.py`: refresh `mtime`/`size`, stamp
`parsed_at` with the current time, clear `last_error`. -/
def mark_file_parsed (db : Db) (file_id : Nat) (mtime size now : Int) : Db :=
  { db with
      files := db.files.map fun r =>
        if r.id = file_id then
          { r with mtime := mtime, size := size, parsed_at := some now, last_error := none }
        else r }

/-- `mark_file_error` from `csig_db.py`: refresh `mtime`/`size`, stamp
`parsed_at`, record the error string. -/
def mark_file_error (db : Db) (file_id : Nat) (mtime size now : Int) (error : PyStr) : Db :=
  { db with
      files := db.files.map fun r =>
        if r.id = file_id then
          { r with
              mtime := mtime
              size := size
              parsed_at := some now
              last_error := some error }
        else r }

/-- The progress dictionary of `_ProgressTracker` in `csig_indexer.py`. -/
structure Progress where
  files_total : Nat
  files_queued : Nat
  files_done : Nat
  files_skipped : Nat
  files_indexed : Nat
  files_failed : Nat
  functions_total : Nat
  running : Bool
  canceled : Bool
  start_time : Option Int
  end_time : Option Int
deriving DecidableEq

/-- The tracker state built by `_ProgressTracker.__init__`. -/
def initProgress : Progress := ⟨0, 0, 0, 0, 0, 0, 0, false, false, none, none⟩

/-- The counter mutations `_discover_files` and `_writer_loop` perform, one
constructor per `tracker.inc(...)` call site. -/
inductive ProgressEv where
  | total
  | skipDone
  | queued
  | failDone
  | indexedDone (nfuncs : Nat)
deriving DecidableEq

/-- Effect of one `tracker.inc(...)` call on the progress counters. -/
def applyEv (p : Progress) : ProgressEv → Progress
  | .total => { p with files_total := p.files_total + 1 }
  | .skipDone =>
      { p with files_skipped := p.files_skipped + 1, files_done := p.files_done + 1 }
  | .queued => { p with files_queued := p.files_queued + 1 }
  | .failDone =>
      { p with files_failed := p.files_failed + 1, files_done := p.files_done + 1 }
  | .indexedDone k =>
      { p with
          files_indexed := p.files_indexed + 1
          files_done := p.files_done + 1
          functions_total := p.functions_total + k }

/-- A result record `{path, mtime, size, functions, error}` pushed onto the
Result Queue by a worker. -/
structure IndexResult where
  path : PyStr
  mtime : Int
  size : Int
  functions : List Function
  error : Option PyStr
deriving DecidableEq

/-- The body of `_writer_loop` for one non-sentinel result: upsert the
`files` row; on a truthy error record it and count `files_failed` +
`files_done`; otherwise replace the function set, stamp `parsed_at`, and
count `files_indexed` + `files_done` + `functions_total`.  Each such
application is one committed transaction. -/
def applyResult (now : Int) (db : Db) (tr : Progress) (r : IndexResult) : Db × Progress :=
  let fid_db := get_or_create_file db r.path r.mtime r.size
  let fid := fid_db.1
  let db1 := fid_db.2
  if pyTruthyStr r.error then
    (mark_file_error db1 fid r.mtime r.size now (r.error.getD []), applyEv tr .failDone)
  else
    let db2 := replace_functions_for_file db1 fid r.functions
    (mark_file_parsed db2 fid r.mtime r.size now, applyEv tr (.indexedDone r.functions.length))

theorem get_or_create_file_functions (db : Db) (path : PyStr) (mt sz : Int) :
    (get_or_create_file db path mt sz).2.functions = db.functions := by
  unfold get_or_create_file
  cases db.files.find? (fun r => r.path == path) <;> rfl

theorem get_or_create_file_nextFunctionId (db : Db) (path : PyStr) (mt sz : Int) :
    (get_or_create_file db path mt sz).2.nextFunctionId = db.nextFunctionId := by
  unfold get_or_create_file
  cases db.files.find? (fun r => r.path == path) <;> rfl

theorem get_or_create_file_mem (db : Db) (path : PyStr) (mt sz : Int) :
    ∃ row ∈ (get_or_create_file db path mt sz).2.files,
      row.id = (get_or_create_file db path mt sz).1 ∧ row.path = path := by
  unfold get_or_create_file
  cases hf : db.files.find? (fun r => r.path == path) with
  | none =>
      refine ⟨⟨db.nextFileId, path, mt, sz, none, none⟩, ?_, rfl, rfl⟩
      simp
  | some row =>
      have hmem := List.mem_of_find?_eq_some hf
      have hp : row.path = path := by simpa using List.find?_some hf
      refine ⟨{ row with mtime := mt, size := sz }, ?_, rfl, hp⟩
      have hmap := List.mem_map_of_mem
        (fun r => if r.id = row.id then { r with mtime := mt, size := sz } else r) hmem
      simpa using hmap

/-- C1 (counterexample): a Result with a truthy error applied to a file
that already holds FunctionRecords from an earlier successful parse leaves
those records associated with the file — the claim's "zero FunctionRecords
remain" conjunct is false. -/
theorem writer_error_stale_functions_counterexample :
    pyTruthyStr (some ['b']) = true ∧
      ¬ (((applyResult 7
            ⟨[⟨0, ['a'], 1, 10, some 5, none⟩],
              [⟨0, 0, ['f'], ['i'], [], ['s'], 1, 1⟩], 1, 1⟩
            initProgress
            ⟨['a'], 2, 11, [], some ['b']⟩).1.functions.filter
          fun f => f.file_id == 0) = []) :=
  ⟨rfl, by decide⟩

/-- C1 (amended): for every Result with a truthy error, the Writer records
the error as `last_error` on the file's row, increments `files_failed` and
`files_done`, and inserts no FunctionRecords: the `functions` table is left
exactly as it was (in particular a never-successfully-parsed file keeps
zero records, while stale records from an earlier successful parse
remain). -/
theorem writer_error_result (now : Int) (db : Db) (tr : Progress) (r : IndexResult)
    (herr : pyTruthyStr r.error = true) :
    (applyResult now db tr r).1.functions = db.functions ∧
      (∃ row ∈ (applyResult now db tr r).1.files,
          row.path = r.path ∧ row.last_error = some (r.error.getD [])) ∧
      (applyResult now db tr r).2.files_failed = tr.files_failed + 1 ∧
      (applyResult now db tr r).2.files_done = tr.files_done + 1 := by
  have happ : applyResult now db tr r =
      (mark_file_error (get_or_create_file db r.path r.mtime r.size).2
          (get_or_create_file db r.path r.mtime r.size).1 r.mtime r.size now
          (r.error.getD []),
        applyEv tr .failDone) := by
    simp [applyResult, herr]
  rw [happ]
  refine ⟨?_, ?_, rfl, rfl⟩
  · simpa [mark_file_error] using get_or_create_file_functions db r.path r.mtime r.size
  · obtain ⟨row, hmem, hid, hpath⟩ := get_or_create_file_mem db r.path r.mtime r.size
    simp only [mark_file_error]
    refine ⟨_, List.mem_map_of_mem _ hmem, ?_, ?_⟩ <;> simp [hid, hpath]

theorem mkFunctionRows_length (fid : Nat) : ∀ (n : Nat) (fs : List Function),
    (mkFunctionRows fid n fs).length = fs.length := by
  intro n fs
  induction fs generalizing n with
  | nil => rfl
  | cons f fs ih => simp [mkFunctionRows, ih]

theorem mkFunctionRows_mem (fid : Nat) : ∀ (n : Nat) (fs : List Function)
    (f : FunctionRow), f ∈ mkFunctionRows fid n fs → f.file_id = fid ∧ n ≤ f.id := by
  intro n fs
  induction fs generalizing n with
  | nil => intro f hf; simp [mkFunctionRows] at hf
  | cons g gs ih =>
      intro f hf
      simp only [mkFunctionRows, List.mem_cons] at hf
      rcases hf with rfl | hf
      · exact ⟨rfl, Nat.le_refl _⟩
      · obtain ⟨h1, h2⟩ := ih (n + 1) f hf
        exact ⟨h1, by omega⟩

theorem filter_opp_eq_nil (l : List FunctionRow) (fid : Nat) :
    (l.filter fun f => !(f.file_id == fid)).filter (fun f => f.file_id == fid) = [] := by
  refine List.filter_eq_nil_iff.mpr ?_
  intro f hf
  have h2 := (List.mem_filter.mp hf).2
  simp at h2 ⊢
  exact h2

theorem filter_opp_idem (l : List FunctionRow) (fid : Nat) :
    (l.filter fun f => !(f.file_id == fid)).filter (fun f => !(f.file_id == fid)) =
      l.filter fun f => !(f.file_id == fid) := by
  refine List.filter_eq_self.mpr ?_
  intro f hf
  exact (List.mem_filter.mp hf).2

/-- C2: applying a successful Result with `M` parsed functions replaces the
file's FunctionRecord set as a unit: exactly `M` records remain for the
file, all of them newly inserted (ids at or above the old `AUTOINCREMENT`
cursor, so no old record survives in the mix), and records of other files
are untouched. -/
theorem writer_success_replaces_functions (now : Int) (db : Db) (tr : Progress)
    (r : IndexResult) (hok : pyTruthyStr r.error = false) :
    (((applyResult now db tr r).1.functions.filter
          fun f => f.file_id == (get_or_create_file db r.path r.mtime r.size).1).length
        = r.functions.length) ∧
      (∀ f ∈ (applyResult now db tr r).1.functions,
          f.file_id = (get_or_create_file db r.path r.mtime r.size).1 →
            db.nextFunctionId ≤ f.id) ∧
      ((applyResult now db tr r).1.functions.filter
          fun f => !(f.file_id == (get_or_create_file db r.path r.mtime r.size).1))
        = db.functions.filter
            fun f => !(f.file_id == (get_or_create_file db r.path r.mtime r.size).1) := by
  have happ : applyResult now db tr r =
      (mark_file_parsed
          (replace_functions_for_file (get_or_create_file db r.path r.mtime r.size).2
            (get_or_create_file db r.path r.mtime r.size).1 r.functions)
          (get_or_create_file db r.path r.mtime r.size).1 r.mtime r.size now,
        applyEv tr (.indexedDone r.functions.length)) := by
    simp [applyResult, hok]
  rw [happ]
  have hfns := get_or_create_file_functions db r.path r.mtime r.size
  have hnid := get_or_create_file_nextFunctionId db r.path r.mtime r.size
  simp only [mark_file_parsed, replace_functions_for_file, hfns, hnid]
  by_cases hemp : r.functions.isEmpty
  · have he : r.functions = [] := List.isEmpty_iff.mp hemp
    rw [he]
    simp [filter_opp_eq_nil, filter_opp_idem]
    intro f hf hne hfid
    exact absurd hfid hne
  · rw [if_neg hemp]
    simp only
    refine ⟨?_, ?_, ?_⟩
    · rw [List.filter_append, filter_opp_eq_nil, List.nil_append]
      have hall : (mkFunctionRows (get_or_create_file db r.path r.mtime r.size).1
          db.nextFunctionId r.functions).filter
            (fun f => f.file_id == (get_or_create_file db r.path r.mtime r.size).1)
          = mkFunctionRows (get_or_create_file db r.path r.mtime r.size).1
              db.nextFunctionId r.functions := by
        refine List.filter_eq_self.mpr ?_
        intro f hf
        have := (mkFunctionRows_mem _ _ _ f hf).1
        simp [this]
      rw [hall, mkFunctionRows_length]
    · intro f hf hfid
      rcases List.mem_append.mp hf with hl | hr
      · have := List.of_mem_filter hl
        simp [hfid] at this
      · exact (mkFunctionRows_mem _ _ _ f hr).2
    · rw [List.filter_append, filter_opp_idem]
      have hnone : (mkFunctionRows (get_or_create_file db r.path r.mtime r.size).1
          db.nextFunctionId r.functions).filter
            (fun f => !(f.file_id == (get_or_create_file db r.path r.mtime r.size).1))
          = [] := by
        refine List.filter_eq_nil_iff.mpr ?_
        intro f hf
        have := (mkFunctionRows_mem _ _ _ f hf).1
        simp [this]
      rw [hnone, List.append_nil]

/-- Witness for `writer_error_result` at a concrete error result. -/
theorem writer_error_result_witness :
    pyTruthyStr (some ['b']) = true ∧
      ((applyResult 7 ⟨[], [], 0, 0⟩ initProgress ⟨['a'], 2, 11, [], some ['b']⟩).1.functions
          = (⟨[], [], 0, 0⟩ : Db).functions ∧
        (∃ row ∈ (applyResult 7 ⟨[], [], 0, 0⟩ initProgress
            ⟨['a'], 2, 11, [], some ['b']⟩).1.files,
            row.path = ['a'] ∧ row.last_error = some ((some ['b']).getD [])) ∧
        (applyResult 7 ⟨[], [], 0, 0⟩ initProgress
            ⟨['a'], 2, 11, [], some ['b']⟩).2.files_failed = initProgress.files_failed + 1 ∧
        (applyResult 7 ⟨[], [], 0, 0⟩ initProgress
            ⟨['a'], 2, 11, [], some ['b']⟩).2.files_done = initProgress.files_done + 1) :=
  ⟨rfl, writer_error_result 7 ⟨[], [], 0, 0⟩ initProgress ⟨['a'], 2, 11, [], some ['b']⟩ rfl⟩

/-- A one-file database holding one stale function record, used to witness
the success-path replacement. -/
def sampleDbC2 : Db :=
  ⟨[⟨0, ['a'], 1, 10, some 5, none⟩], [⟨0, 0, ['f'], ['i'], [], ['s'], 1, 1⟩], 1, 1⟩

/-- A successful parse result with two functions for the same file. -/
def sampleResultC2 : IndexResult :=
  ⟨['a'], 2, 11,
    [⟨['g'], ⟨['a'], 3, 1⟩, ['i'], [], false, some ['s']⟩,
      ⟨['h'], ⟨['a'], 4, 1⟩, ['i'], [], false, none⟩], none⟩

/-- Witness for `writer_success_replaces_functions`: a file with one stale
record is reindexed with two functions. -/
theorem writer_success_replaces_functions_witness :
    pyTruthyStr sampleResultC2.error = false ∧
      ((((applyResult 7 sampleDbC2 initProgress sampleResultC2).1.functions.filter
            fun f => f.file_id == (get_or_create_file sampleDbC2 sampleResultC2.path
              sampleResultC2.mtime sampleResultC2.size).1).length
          = sampleResultC2.functions.length) ∧
        (∀ f ∈ (applyResult 7 sampleDbC2 initProgress sampleResultC2).1.functions,
            f.file_id = (get_or_create_file sampleDbC2 sampleResultC2.path
              sampleResultC2.mtime sampleResultC2.size).1 →
              sampleDbC2.nextFunctionId ≤ f.id) ∧
        ((applyResult 7 sampleDbC2 initProgress sampleResultC2).1.functions.filter
            fun f => !(f.file_id == (get_or_create_file sampleDbC2 sampleResultC2.path
              sampleResultC2.mtime sampleResultC2.size).1))
          = sampleDbC2.functions.filter
              fun f => !(f.file_id == (get_or_create_file sampleDbC2 sampleResultC2.path
                sampleResultC2.mtime sampleResultC2.size).1)) :=
  ⟨rfl, writer_success_replaces_functions 7 sampleDbC2 initProgress sampleResultC2 rfl⟩

/-- SQLite's default `NOCASE`-style folding (also used by `LIKE`): ASCII
`A`-`Z` fold to lowercase, all other characters compare byte-for-byte. -/
def sqliteFoldChar (c : Char) : Char :=
  if 'A' ≤ c ∧ c ≤ 'Z' then Char.ofNat (c.toNat + 32) else c

/-- Fold a whole string for `COLLATE NOCASE` / `LIKE` comparisons. -/
def sqliteFoldStr (s : PyStr) : PyStr := s.map sqliteFoldChar

/-- SQL `LIKE` pattern matching over folded strings: `%` matches any
sequence, `_` any single character, anything else itself.  The fuel
argument is an upper bound on the recursion depth (`|pattern| + |text|`
shrinks at every step), making the matcher structurally recursive and
hence computable in proofs. -/
def sqlLikeFuel : Nat → PyStr → PyStr → Bool
  | 0, _, _ => false
  | _ + 1, [], s => s.isEmpty
  | fuel + 1, '%' :: ps, s =>
      sqlLikeFuel fuel ps s ||
        (match s with
          | [] => false
          | _ :: t => sqlLikeFuel fuel ('%' :: ps) t)
  | fuel + 1, '_' :: ps, s =>
      (match s with
        | [] => false
        | _ :: t => sqlLikeFuel fuel ps t)
  | fuel + 1, p :: ps, s =>
      (match s with
        | [] => false
        | c :: t => p == c && sqlLikeFuel fuel ps t)

/-- `text LIKE pat` with SQLite's default ASCII case-insensitivity. -/
def sqlLike (pat text : PyStr) : Bool :=
  sqlLikeFuel (pat.length + text.length + 1) (sqliteFoldStr pat) (sqliteFoldStr text)

/-- The SELECT column list of `fetch_candidates`: one result dict per
`functions` row joined with its `files` row. -/
def candOfRows (fi : FileRow) (f : FunctionRow) : Candidate :=
  ⟨f.id, fi.path, f.name, f.return_type, f.params, f.signature_norm, f.line, f.column⟩

/-- The `FROM functions AS f JOIN files AS fi ON fi.id = f.file_id` join. -/
def joinedRows (db : Db) : List Candidate :=
  db.functions.filterMap fun f =>
    (db.files.find? fun fi => fi.id == f.file_id).map fun fi => candOfRows fi f

/-- The `ORDER BY f.name COLLATE NOCASE, fi.path COLLATE NOCASE, f.line,
f.column` key. -/
abbrev FetchKey := Lex (PyStr × Lex (PyStr × Lex (Int × Int)))

def fetchKey (c : Candidate) : FetchKey :=
  toLex (sqliteFoldStr c.name, toLex (sqliteFoldStr c.path, toLex (c.line, c.column)))

def fetchLe (a b : Candidate) : Prop := fetchKey a ≤ fetchKey b

instance : DecidableRel fetchLe :=
  fun a b => inferInstanceAs (Decidable (fetchKey a ≤ fetchKey b))

/-- Deterministic model of the `ORDER BY` clause of `fetch_candidates`. -/
def orderRows (l : List Candidate) : List Candidate := List.insertionSort fetchLe l

/-- The `WHERE` clause built by `fetch_candidates`: `none` when no filter
is applied, otherwise the row predicate (`name LIKE %…%` OR
`signature_norm LIKE %…%`, following the query's truthy fields). -/
def fetchFilter (q : Query) : Option (Candidate → Bool) :=
  if pyTruthyStr q.name && pyTruthyStr q.normalised_signature then
    some fun c =>
      sqlLike ('%' :: (q.name.getD [] ++ ['%'])) c.name ||
        sqlLike ('%' :: (q.normalised_signature.getD [] ++ ['%'])) c.signature_norm
  else if pyTruthyStr q.name then
    some fun c => sqlLike ('%' :: (q.name.getD [] ++ ['%'])) c.name
  else if pyTruthyStr q.normalised_signature then
    some fun c => sqlLike ('%' :: (q.normalised_signature.getD [] ++ ['%'])) c.signature_norm
  else none

/-- `fetch_candidates(db, query, limit)` from `csig_db.py`: run the
filtered, ordered, limited query; if it returns no rows although a filter
was applied, rerun without the filter. -/
def fetch_candidates (db : Db) (q : Query) (limit : Nat) : List Candidate :=
  let rows :=
    match fetchFilter q with
    | some p => (orderRows ((joinedRows db).filter p)).take limit
    | none => (orderRows (joinedRows db)).take limit
  if rows.isEmpty && (fetchFilter q).isSome then
    (orderRows (joinedRows db)).take limit
  else rows

/-- C6: when a filter was applied and the filtered fetch yields zero rows,
`fetch_candidates` returns exactly what the unfiltered query (a query with
no name and no signature) returns: the unfiltered top-`limit` rows in the
same order, not an empty list. -/
theorem fetch_candidates_fallback (db : Db) (q : Query) (limit : Nat)
    (p : Candidate → Bool) (hp : fetchFilter q = some p)
    (hempty : (orderRows ((joinedRows db).filter p)).take limit = []) :
    fetch_candidates db q limit = fetch_candidates db ⟨none, none⟩ limit := by
  unfold fetch_candidates
  rw [hp]
  simp [hempty, fetchFilter, pyTruthyStr]

/-- Witness for `fetch_candidates_fallback`: a store holding one function
`foo`, queried with the name filter `z` that matches nothing. -/
theorem fetch_candidates_fallback_witness :
    fetchFilter ⟨some ['z'], none⟩ =
        some (fun c => sqlLike ('%' :: ((['z'] : PyStr) ++ ['%'])) c.name) ∧
      (orderRows ((joinedRows
          ⟨[⟨0, ['p'], 1, 10, some 5, none⟩],
            [⟨0, 0, ['f', 'o', 'o'], ['i'], [], ['s'], 1, 1⟩], 1, 1⟩).filter
          (fun c => sqlLike ('%' :: ((['z'] : PyStr) ++ ['%'])) c.name))).take 5 = [] ∧
      fetch_candidates
          ⟨[⟨0, ['p'], 1, 10, some 5, none⟩],
            [⟨0, 0, ['f', 'o', 'o'], ['i'], [], ['s'], 1, 1⟩], 1, 1⟩
          ⟨some ['z'], none⟩ 5 =
        fetch_candidates
          ⟨[⟨0, ['p'], 1, 10, some 5, none⟩],
            [⟨0, 0, ['f', 'o', 'o'], ['i'], [], ['s'], 1, 1⟩], 1, 1⟩
          ⟨none, none⟩ 5 :=
  ⟨rfl, by decide,
    fetch_candidates_fallback
      ⟨[⟨0, ['p'], 1, 10, some 5, none⟩],
        [⟨0, 0, ['f', 'o', 'o'], ['i'], [], ['s'], 1, 1⟩], 1, 1⟩
      ⟨some ['z'], none⟩ 5
      (fun c => sqlLike ('%' :: ((['z'] : PyStr) ++ ['%'])) c.name) rfl (by decide)⟩

/-- One file listed by `os.walk`: the bare filename (for the extension
check), the resolved absolute path `str(Path(dirpath, filename).resolve())`,
and the `stat` outcome — `none` models an `OSError`, which Discovery
skips silently. -/
structure FsEntry where
  fname : PyStr
  rpath : PyStr
  stat : Option (Int × Int)
deriving DecidableEq

/-- One directory yielded by `os.walk`. -/
structure WalkDir where
  files : List FsEntry
deriving DecidableEq

/-- `C_EXTENSIONS | CPP_EXTENSIONS | HEADER_EXTENSIONS` from
`csig_indexer.py`. -/
def sourceExtensions : List PyStr :=
  [['.', 'c'], ['.', 'c', 'c'], ['.', 'c', 'p', 'p'], ['.', 'c', 'x', 'x'],
    ['.', 'c', '+', '+'], ['.', 'h'], ['.', 'h', 'h'], ['.', 'h', 'p', 'p'],
    ['.', 'h', 'x', 'x']]

/-- `PurePath.suffix`: the text from the last dot on, provided that dot is
neither the first nor the last character of the name. -/
def pySuffix (name : PyStr) : PyStr :=
  match ((List.range name.length).filter fun i => name.get? i == some '.').getLast? with
  | some i => if 0 < i ∧ i < name.length - 1 then name.drop i else []
  | none => []

/-- `Path(filename).suffix.lower() in (C_EXTENSIONS | CPP_EXTENSIONS |
HEADER_EXTENSIONS)`. -/
def extOk (fname : PyStr) : Bool :=
  sourceExtensions.contains (pyLowerStr (pySuffix fname))

/-- A `(path, mtime, size)` task on the Task Queue. -/
abbrev FileTask := PyStr × Int × Int

/-- `iter_file_states` builds `{path: (mtime, size)}` row by row, later
rows overwriting earlier ones; this recursion is right-biased to match. -/
def lookupState : List FileRow → PyStr → Option (Int × Int)
  | [], _ => none
  | r :: rest, p =>
      match lookupState rest p with
      | some v => some v
      | none => if r.path = p then some (r.mtime, r.size) else none

/-- `iter_file_states(db)` from `csig_db.py`, as a lookup function. -/
def iterFileStates (db : Db) : PyStr → Option (Int × Int) :=
  fun p => lookupState db.files p

/-- The per-file body of `_discover_files`: extension filter, stat (with
silent skip on error), `files_total` count, then either skip-and-count or
enqueue-and-count. -/
def stepEntry (known : PyStr → Option (Int × Int)) (st : Progress × List FileTask)
    (e : FsEntry) : Progress × List FileTask :=
  if !extOk e.fname then st
  else
    match e.stat with
    | none => st
    | some (mt, sz) =>
        let tr1 := applyEv st.1 .total
        if known e.rpath = some (mt, sz) then (applyEv tr1 .skipDone, st.2)
        else (applyEv tr1 .queued, st.2 ++ [(e.rpath, mt, sz)])

/-- The `for filename in filenames` loop of `_discover_files`, with the
cooperative cancellation check (numbered by `c`) before each file; a set
flag breaks out of the directory. -/
def discoverEntries (known : PyStr → Option (Int × Int)) (cancel : Nat → Bool) :
    List FsEntry → Nat → Progress → List FileTask → Nat × Progress × List FileTask
  | [], c, tr, tasks => (c, tr, tasks)
  | e :: es, c, tr, tasks =>
      if cancel c then (c + 1, tr, tasks)
      else
        let st := stepEntry known (tr, tasks) e
        discoverEntries known cancel es (c + 1) st.1 st.2

/-- The `for dirpath, ... in os.walk(root)` loop of `_discover_files`, with
its own cancellation check before each directory; a set flag stops the
walk. -/
def discoverDirs (known : PyStr → Option (Int × Int)) (cancel : Nat → Bool) :
    List WalkDir → Nat → Progress → List FileTask → Progress × List FileTask
  | [], _, tr, tasks => (tr, tasks)
  | d :: ds, c, tr, tasks =>
      if cancel c then (tr, tasks)
      else
        let st := discoverEntries known cancel d.files (c + 1) tr tasks
        discoverDirs known cancel ds st.1 st.2.1 st.2.2

/-- `_discover_files`: walk, then — in the `finally` block, on every exit
path — push exactly one `None` sentinel per worker onto the Task Queue.
The returned list is the whole queue content in order. -/
def discoverFiles (workers : Nat) (known : PyStr → Option (Int × Int))
    (cancel : Nat → Bool) (dirs : List WalkDir) (tr0 : Progress) :
    List (Option FileTask) × Progress :=
  let st := discoverDirs known cancel dirs 0 tr0 []
  (st.2.map some ++ List.replicate workers none, st.1)

/-- `_worker_loop`: pop tasks (the numbered cancellation flag is read once
per real task); on the `None` sentinel stop and push one `None` completion
sentinel downstream.  A poisoned libclang index (`indexError`) turns every
task into an error result; otherwise the parser collaborator `parseFn`
produces `(functions, error)`. -/
def workerLoop (parseFn : PyStr → Int → Int → List Function × Option PyStr)
    (indexError : Option PyStr) (cancel : Nat → Bool) :
    Nat → List (Option FileTask) → List (Option IndexResult)
  | _, [] => []
  | _, none :: _ => [none]
  | c, some (p, mt, sz) :: rest =>
      if cancel c then workerLoop parseFn indexError cancel (c + 1) rest
      else
        match indexError with
        | some e => some ⟨p, mt, sz, [], some e⟩ :: workerLoop parseFn indexError cancel (c + 1) rest
        | none =>
            some ⟨p, mt, sz, (parseFn p mt sz).1, (parseFn p mt sz).2⟩ ::
              workerLoop parseFn indexError cancel (c + 1) rest

/-- `_writer_loop`: `while finished_workers < workers`, pop one queue item;
a `None` sentinel bumps the finished count, a result is applied as one
transaction.  Returns the final store, tracker and the unconsumed rest of
the stream. -/
def writerLoop (now : Int) (workers : Nat) :
    Nat → Db → Progress → List (Option IndexResult) →
      Db × Progress × List (Option IndexResult)
  | _, db, tr, [] => (db, tr, [])
  | finished, db, tr, item :: rest =>
      if workers ≤ finished then (db, tr, item :: rest)
      else
        match item with
        | none => writerLoop now workers (finished + 1) db tr rest
        | some r =>
            let st := applyResult now db tr r
            writerLoop now workers finished st.1 st.2 rest

/-- Count of termination sentinels in a queue. -/
def countNone {α : Type} (l : List (Option α)) : Nat :=
  (l.filter fun x => x.isNone).length

@[simp] theorem countNone_nil {α : Type} : countNone ([] : List (Option α)) = 0 := rfl

@[simp] theorem countNone_cons_none {α : Type} (l : List (Option α)) :
    countNone (none :: l) = countNone l + 1 := by
  simp [countNone, List.filter]

@[simp] theorem countNone_cons_some {α : Type} (a : α) (l : List (Option α)) :
    countNone (some a :: l) = countNone l := by
  simp [countNone, List.filter]

theorem countNone_map_some {α : Type} (l : List α) : countNone (l.map some) = 0 := by
  induction l with
  | nil => rfl
  | cons x xs ih => simpa using ih

theorem countNone_replicate {α : Type} (n : Nat) :
    countNone (List.replicate n (none : Option α)) = n := by
  induction n with
  | zero => rfl
  | succ n ih => simpa [List.replicate] using ih

theorem countNone_append {α : Type} (l1 l2 : List (Option α)) :
    countNone (l1 ++ l2) = countNone l1 + countNone l2 := by
  simp [countNone, List.filter_append]

theorem writerLoop_stops (now : Int) (workers : Nat) :
    ∀ (mid : List (Option IndexResult)) (finished : Nat) (db : Db) (tr : Progress)
      (post : List (Option IndexResult)),
      finished + countNone mid + 1 = workers →
      ∃ db' tr', writerLoop now workers finished db tr (mid ++ none :: post) =
        (db', tr', post) := by
  intro mid
  induction mid with
  | nil =>
    intro finished db tr post h
    simp only [countNone_nil] at h
    have hlt : ¬ workers ≤ finished := by omega
    cases post with
    | nil =>
      refine ⟨db, tr, ?_⟩
      simp [writerLoop, hlt]
    | cons it rest =>
      have hge : workers ≤ finished + 1 := by omega
      refine ⟨db, tr, ?_⟩
      simp [writerLoop, hlt, hge]
  | cons x mid' ih =>
    intro finished db tr post h
    cases x with
    | none =>
      simp only [countNone_cons_none] at h
      have hlt : ¬ workers ≤ finished := by omega
      have h' : (finished + 1) + countNone mid' + 1 = workers := by omega
      obtain ⟨db', tr', heq⟩ := ih (finished + 1) db tr post h'
      refine ⟨db', tr', ?_⟩
      simpa [writerLoop, hlt] using heq
    | some r =>
      simp only [countNone_cons_some] at h
      have hlt : ¬ workers ≤ finished := by omega
      obtain ⟨db', tr', heq⟩ :=
        ih finished (applyResult now db tr r).1 (applyResult now db tr r).2 post h
      refine ⟨db', tr', ?_⟩
      simpa [writerLoop, hlt] using heq

/-- C7: the sentinel protocol.  (1) On every execution of Discovery —
whatever the cancellation pattern, including an immediate stop — exactly
`workers` termination sentinels are pushed onto the Task Queue.  (2) A
worker that receives its input sentinel pushes exactly one completion
sentinel, as its last output, and exits.  (3) The Writer consumes its
stream exactly up to the `workers`-th completion sentinel and stops there,
leaving the rest untouched. -/
theorem pipeline_sentinel_protocol :
    (∀ (workers : Nat) (known : PyStr → Option (Int × Int)) (cancel : Nat → Bool)
        (dirs : List WalkDir) (tr0 : Progress),
        countNone (discoverFiles workers known cancel dirs tr0).1 = workers) ∧
      (∀ (parseFn : PyStr → Int → Int → List Function × Option PyStr)
          (indexError : Option PyStr) (cancel : Nat → Bool) (c : Nat)
          (inputs : List (Option FileTask)),
          none ∈ inputs →
            ∃ rs, workerLoop parseFn indexError cancel c inputs = rs ++ [none] ∧
              ∀ x ∈ rs, x ≠ none) ∧
      (∀ (now : Int) (workers : Nat) (db : Db) (tr : Progress)
          (mid post : List (Option IndexResult)),
          countNone mid + 1 = workers →
          ∃ db' tr', writerLoop now workers 0 db tr (mid ++ none :: post) =
            (db', tr', post)) := by
  refine ⟨?_, ?_, ?_⟩
  · intro workers known cancel dirs tr0
    simp [discoverFiles, countNone_append, countNone_map_some, countNone_replicate]
  · intro parseFn indexError cancel c inputs hmem
    induction inputs generalizing c with
    | nil => simp at hmem
    | cons x rest ih =>
      cases x with
      | none => exact ⟨[], rfl, by simp⟩
      | some t =>
        have hmem' : none ∈ rest := by
          rcases List.mem_cons.mp hmem with h | h
          · exact absurd h.symm (by simp)
          · exact h
        obtain ⟨p, mt, sz⟩ := t
        by_cases hc : cancel c
        · have heq : workerLoop parseFn indexError cancel c (some (p, mt, sz) :: rest) =
              workerLoop parseFn indexError cancel (c + 1) rest := by
            simp [workerLoop, hc]
          rw [heq]
          exact ih (c + 1) hmem'
        · cases hie : indexError with
          | some e =>
            have heq : workerLoop parseFn indexError cancel c (some (p, mt, sz) :: rest) =
                some ⟨p, mt, sz, [], some e⟩ ::
                  workerLoop parseFn indexError cancel (c + 1) rest := by
              simp [workerLoop, hc, hie]
            obtain ⟨rs, hrs, hall⟩ := ih (c + 1) hmem'
            rw [hie] at heq hrs
            refine ⟨some ⟨p, mt, sz, [], some e⟩ :: rs, ?_, ?_⟩
            · rw [heq, hrs]; rfl
            · intro y hy
              rcases List.mem_cons.mp hy with rfl | hy
              · simp
              · exact hall y hy
          | none =>
            have heq : workerLoop parseFn indexError cancel c (some (p, mt, sz) :: rest) =
                some ⟨p, mt, sz, (parseFn p mt sz).1, (parseFn p mt sz).2⟩ ::
                  workerLoop parseFn indexError cancel (c + 1) rest := by
              simp [workerLoop, hc, hie]
            obtain ⟨rs, hrs, hall⟩ := ih (c + 1) hmem'
            rw [hie] at heq hrs
            refine ⟨some ⟨p, mt, sz, (parseFn p mt sz).1, (parseFn p mt sz).2⟩ :: rs, ?_, ?_⟩
            · rw [heq, hrs]; rfl
            · intro y hy
              rcases List.mem_cons.mp hy with rfl | hy
              · simp
              · exact hall y hy
  · intro now workers db tr mid post h
    exact writerLoop_stops now workers mid 0 db tr post (by omega)

/-- Witness for `pipeline_sentinel_protocol` at concrete queue contents. -/
theorem pipeline_sentinel_protocol_witness :
    countNone (discoverFiles 2 (fun _ => none) (fun _ => false) [] initProgress).1 = 2 ∧
      (none ∈ ([some (['a'], 1, 10), none] : List (Option FileTask)) ∧
        ∃ rs, workerLoop (fun _ _ _ => ([], none)) none (fun _ => false) 0
            [some (['a'], 1, 10), none] = rs ++ [none] ∧ ∀ x ∈ rs, x ≠ none) ∧
      (countNone ([some ⟨['a'], 1, 10, [], none⟩] : List (Option IndexResult)) + 1 = 1 ∧
        ∃ db' tr', writerLoop 7 1 0 ⟨[], [], 0, 0⟩ initProgress
            ([some ⟨['a'], 1, 10, [], none⟩] ++ none :: []) = (db', tr', [])) :=
  ⟨pipeline_sentinel_protocol.1 2 (fun _ => none) (fun _ => false) [] initProgress,
    ⟨by simp, pipeline_sentinel_protocol.2.1 (fun _ _ _ => ([], none)) none (fun _ => false) 0
      [some (['a'], 1, 10), none] (by simp)⟩,
    ⟨by decide, pipeline_sentinel_protocol.2.2 7 1 ⟨[], [], 0, 0⟩ initProgress
      [some ⟨['a'], 1, 10, [], none⟩] [] (by decide)⟩⟩

def isTotalEv : ProgressEv → Bool
  | .total => true
  | _ => false

def isSkipEv : ProgressEv → Bool
  | .skipDone => true
  | _ => false

def isQueuedEv : ProgressEv → Bool
  | .queued => true
  | _ => false

def isFailEv : ProgressEv → Bool
  | .failDone => true
  | _ => false

def isIndexedEv : ProgressEv → Bool
  | .indexedDone _ => true
  | _ => false

def countEv (evs : List ProgressEv) (p : ProgressEv → Bool) : Nat := (evs.filter p).length

/-- A possible interleaving of the tracker mutations of one index run:
Discovery only skips or enqueues a file after counting it in
`files_total`, and the Writer only applies a result for a task that was
actually enqueued — so in every prefix of the trace, skips + enqueues
never exceed totals, and failures + indexings never exceed enqueues. -/
def TraceOk (evs : List ProgressEv) : Prop :=
  ∀ pre ∈ evs.inits,
    countEv pre isSkipEv + countEv pre isQueuedEv ≤ countEv pre isTotalEv ∧
      countEv pre isFailEv + countEv pre isIndexedEv ≤ countEv pre isQueuedEv

instance (evs : List ProgressEv) : Decidable (TraceOk evs) := by
  unfold TraceOk; infer_instance

/-- The tracker state after a sequence of `tracker.inc` mutations. -/
def runTrace (tr0 : Progress) (evs : List ProgressEv) : Progress := evs.foldl applyEv tr0

theorem runTrace_counts (evs : List ProgressEv) : ∀ tr0 : Progress,
    (runTrace tr0 evs).files_total = tr0.files_total + countEv evs isTotalEv ∧
      (runTrace tr0 evs).files_queued = tr0.files_queued + countEv evs isQueuedEv ∧
      (runTrace tr0 evs).files_skipped = tr0.files_skipped + countEv evs isSkipEv ∧
      (runTrace tr0 evs).files_failed = tr0.files_failed + countEv evs isFailEv ∧
      (runTrace tr0 evs).files_indexed = tr0.files_indexed + countEv evs isIndexedEv ∧
      (runTrace tr0 evs).files_done = tr0.files_done + countEv evs isSkipEv +
        countEv evs isFailEv + countEv evs isIndexedEv := by
  induction evs with
  | nil => intro tr0; simp [runTrace, countEv]
  | cons ev rest ih =>
    intro tr0
    have h := ih (applyEv tr0 ev)
    have hrun : runTrace tr0 (ev :: rest) = runTrace (applyEv tr0 ev) rest := rfl
    rw [hrun]
    cases ev <;>
      simp only [countEv, List.filter, isTotalEv, isQueuedEv, isSkipEv, isFailEv,
        isIndexedEv, applyEv, List.length_cons] at h ⊢ <;>
      omega

/-- C10: after any valid interleaving of the tracker mutations Discovery
and the Writer perform during an index run (starting from the zeroed
tracker counters), `files_done = files_skipped + files_indexed +
files_failed` and `files_done ≤ files_total`.  Since every prefix of a
valid trace is valid, the invariant holds after every single mutation. -/
theorem progress_counters_invariant (tr0 : Progress) (evs : List ProgressEv)
    (htotal : tr0.files_total = 0) (_hqueued : tr0.files_queued = 0)
    (hdone : tr0.files_done = 0) (hskip : tr0.files_skipped = 0)
    (hidx : tr0.files_indexed = 0) (hfail : tr0.files_failed = 0)
    (hok : TraceOk evs) :
    (runTrace tr0 evs).files_done =
        (runTrace tr0 evs).files_skipped + (runTrace tr0 evs).files_indexed +
          (runTrace tr0 evs).files_failed ∧
      (runTrace tr0 evs).files_done ≤ (runTrace tr0 evs).files_total := by
  obtain ⟨h1, h2, h3, h4, h5, h6⟩ := runTrace_counts evs tr0
  have hself := hok evs (by simp)
  rw [h1, h3, h4, h5, h6, htotal, hdone, hskip, hidx, hfail]
  omega

/-- Witness for `progress_counters_invariant` on the trace of a run that
counts one file, enqueues it, and fails it. -/
theorem progress_counters_invariant_witness :
    initProgress.files_total = 0 ∧ initProgress.files_queued = 0 ∧
      initProgress.files_done = 0 ∧ initProgress.files_skipped = 0 ∧
      initProgress.files_indexed = 0 ∧ initProgress.files_failed = 0 ∧
      TraceOk [.total, .queued, .total, .skipDone, .failDone] ∧
      ((runTrace initProgress [.total, .queued, .total, .skipDone, .failDone]).files_done =
          (runTrace initProgress
              [.total, .queued, .total, .skipDone, .failDone]).files_skipped +
            (runTrace initProgress
              [.total, .queued, .total, .skipDone, .failDone]).files_indexed +
            (runTrace initProgress
              [.total, .queued, .total, .skipDone, .failDone]).files_failed ∧
        (runTrace initProgress [.total, .queued, .total, .skipDone, .failDone]).files_done ≤
          (runTrace initProgress [.total, .queued, .total, .skipDone, .failDone]).files_total) :=
  ⟨rfl, rfl, rfl, rfl, rfl, rfl, by decide,
    progress_counters_invariant initProgress
      [.total, .queued, .total, .skipDone, .failDone] rfl rfl rfl rfl rfl rfl (by decide)⟩

/-- Well-formedness of the store, maintained by every writer operation:
paths are unique (the `UNIQUE` constraint), ids are unique and below the
`AUTOINCREMENT` cursors (primary keys). -/
structure DbWF (db : Db) : Prop where
  pathsNodup : (db.files.map fun r => r.path).Nodup
  idsNodup : (db.files.map fun r => r.id).Nodup
  idsLt : ∀ r ∈ db.files, r.id < db.nextFileId
  funcIdsLt : ∀ f ∈ db.functions, f.id < db.nextFunctionId

theorem lookupState_eq_none (l : List FileRow) (p : PyStr) :
    lookupState l p = none ↔ ∀ r ∈ l, r.path ≠ p := by
  induction l with
  | nil => simp [lookupState]
  | cons r rest ih =>
    simp only [lookupState]
    cases h : lookupState rest p with
    | some v =>
      simp only [List.mem_cons]
      constructor
      · intro hc; cases hc
      · intro hall
        exfalso
        have : lookupState rest p = none := (ih).mpr fun x hx => hall x (Or.inr hx)
        rw [h] at this; cases this
    | none =>
      have hrest := ih.mp h
      by_cases hp : r.path = p
      · simp [hp]
      · simp only [if_neg hp, List.mem_cons]
        constructor
        · intro _ x hx
          rcases hx with rfl | hx
          · exact hp
          · exact hrest x hx
        · intro _; trivial

theorem lookupState_mem (l : List FileRow) (p : PyStr) (row : FileRow)
    (hnodup : (l.map fun r => r.path).Nodup) (hmem : row ∈ l) (hpath : row.path = p) :
    lookupState l p = some (row.mtime, row.size) := by
  induction l with
  | nil => cases hmem
  | cons r rest ih =>
    simp only [List.map_cons, List.nodup_cons] at hnodup
    rcases List.mem_cons.mp hmem with rfl | hmem'
    · have hnone : lookupState rest p = none := by
        rw [lookupState_eq_none]
        intro x hx hxp
        refine hnodup.1 ?_
        refine List.mem_map.mpr ⟨x, hx, ?_⟩
        exact hxp.trans hpath.symm
      simp [lookupState, hnone, hpath]
    · have := ih hnodup.2 hmem'
      simp [lookupState, this]

theorem lookupState_map_congr (l : List FileRow) (g : FileRow → FileRow) (p : PyStr)
    (hgpath : ∀ r, (g r).path = r.path)
    (hfix : ∀ r ∈ l, r.path = p → g r = r) :
    lookupState (l.map g) p = lookupState l p := by
  induction l with
  | nil => rfl
  | cons r rest ih =>
    have ih' := ih fun x hx hxp => hfix x (List.mem_cons_of_mem _ hx) hxp
    simp only [List.map_cons, lookupState, ih']
    cases lookupState rest p with
    | some v => rfl
    | none =>
      by_cases hp : r.path = p
      · rw [hfix r (List.mem_cons_self _ _) hp]
      · simp [hgpath r, hp]

theorem lookupState_append_single (l : List FileRow) (row : FileRow) (p : PyStr) :
    lookupState (l ++ [row]) p =
      if row.path = p then some (row.mtime, row.size) else lookupState l p := by
  induction l with
  | nil => simp [lookupState]
  | cons r rest ih =>
    have hstep : lookupState ((r :: rest) ++ [row]) p =
        match lookupState (rest ++ [row]) p with
        | some v => some v
        | none => if r.path = p then some (r.mtime, r.size) else none := rfl
    by_cases hp : row.path = p
    · rw [hstep, ih, if_pos hp, if_pos hp]
    · rw [hstep, ih, if_neg hp, if_neg hp]
      rfl

theorem map_path_map (l : List FileRow) (g : FileRow → FileRow)
    (hgpath : ∀ r, (g r).path = r.path) :
    (l.map g).map (fun r => r.path) = l.map fun r => r.path := by
  induction l with
  | nil => rfl
  | cons r rest ih => simp [hgpath, ih]

theorem map_id_map (l : List FileRow) (g : FileRow → FileRow)
    (hgid : ∀ r, (g r).id = r.id) :
    (l.map g).map (fun r => r.id) = l.map fun r => r.id := by
  induction l with
  | nil => rfl
  | cons r rest ih => simp [hgid, ih]

theorem nodup_map_inj {α β : Type} (f : α → β) (l : List α)
    (h : (l.map f).Nodup) : ∀ a ∈ l, ∀ b ∈ l, f a = f b → a = b := by
  induction l with
  | nil => intro a ha; cases ha
  | cons x xs ih =>
    simp only [List.map_cons, List.nodup_cons] at h
    intro a ha b hb hfab
    rcases List.mem_cons.mp ha with rfl | ha' <;> rcases List.mem_cons.mp hb with rfl | hb'
    · rfl
    · exact absurd (hfab ▸ List.mem_map_of_mem f hb') h.1
    · exact absurd (hfab ▸ List.mem_map_of_mem f ha') h.1
    · exact ih h.2 a ha' b hb' hfab

theorem mark_map_spec (files : List FileRow) (g : FileRow → FileRow) (p0 : PyStr)
    (mt sz : Int) (hgpath : ∀ r, (g r).path = r.path)
    (hnodup : (files.map fun r => r.path).Nodup)
    (hex : ∃ row ∈ files, row.path = p0 ∧ (g row).mtime = mt ∧ (g row).size = sz)
    (hfix : ∀ r ∈ files, r.path ≠ p0 → g r = r) :
    lookupState (files.map g) p0 = some (mt, sz) ∧
      ∀ p, p ≠ p0 → lookupState (files.map g) p = lookupState files p := by
  constructor
  · obtain ⟨row, hrow, hrp, hgm, hgs⟩ := hex
    have hmem := List.mem_map_of_mem g hrow
    have hnodup' : ((files.map g).map fun r => r.path).Nodup := by
      rw [map_path_map _ _ hgpath]; exact hnodup
    have := lookupState_mem (files.map g) p0 (g row) hnodup' hmem
      (by rw [hgpath]; exact hrp)
    rw [hgm, hgs] at this
    exact this
  · intro p hp
    refine lookupState_map_congr files g p hgpath ?_
    intro r hr hrp
    refine hfix r hr ?_
    rw [hrp]
    exact hp

theorem mapFilesWF (db : Db) (g : FileRow → FileRow)
    (hgpath : ∀ r, (g r).path = r.path) (hgid : ∀ r, (g r).id = r.id)
    (hwf : DbWF db) : DbWF { db with files := db.files.map g } := by
  refine ⟨?_, ?_, ?_, hwf.funcIdsLt⟩
  · show ((db.files.map g).map fun r => r.path).Nodup
    rw [map_path_map _ _ hgpath]; exact hwf.pathsNodup
  · show ((db.files.map g).map fun r => r.id).Nodup
    rw [map_id_map _ _ hgid]; exact hwf.idsNodup
  · intro r hr
    obtain ⟨r0, hr0, rfl⟩ := List.mem_map.mp hr
    show (g r0).id < db.nextFileId
    rw [hgid]
    exact hwf.idsLt r0 hr0

theorem get_or_create_file_spec (db : Db) (path : PyStr) (mt sz : Int) (hwf : DbWF db) :
    DbWF (get_or_create_file db path mt sz).2 ∧
      lookupState (get_or_create_file db path mt sz).2.files path = some (mt, sz) ∧
      (∀ p, p ≠ path → lookupState (get_or_create_file db path mt sz).2.files p =
        lookupState db.files p) ∧
      (∀ r ∈ (get_or_create_file db path mt sz).2.files,
        r.id = (get_or_create_file db path mt sz).1 → r.path = path) := by
  unfold get_or_create_file
  cases hf : db.files.find? (fun r => r.path == path) with
  | none =>
    simp only
    have hnotin : ∀ r ∈ db.files, r.path ≠ path := by
      intro r hr
      have := List.find?_eq_none.mp hf r hr
      simpa using this
    refine ⟨⟨?_, ?_, ?_, hwf.funcIdsLt⟩, ?_, ?_, ?_⟩
    · show ((db.files ++ [(⟨db.nextFileId, path, mt, sz, none, none⟩ : FileRow)]).map
        fun r => r.path).Nodup
      rw [List.map_append]
      rw [List.nodup_append]
      refine ⟨hwf.pathsNodup, by simp, ?_⟩
      intro x hx
      obtain ⟨r, hr, rfl⟩ := List.mem_map.mp hx
      simp [hnotin r hr]
    · show ((db.files ++ [(⟨db.nextFileId, path, mt, sz, none, none⟩ : FileRow)]).map
        fun r => r.id).Nodup
      rw [List.map_append]
      rw [List.nodup_append]
      refine ⟨hwf.idsNodup, by simp, ?_⟩
      intro x hx
      obtain ⟨r, hr, rfl⟩ := List.mem_map.mp hx
      have := hwf.idsLt r hr
      simp
      omega
    · intro r hr
      rcases List.mem_append.mp hr with hl | hrr
      · have := hwf.idsLt r hl
        show r.id < db.nextFileId + 1
        omega
      · simp at hrr
        rw [hrr]
        show db.nextFileId < db.nextFileId + 1
        omega
    · rw [lookupState_append_single]
      simp
    · intro p hp
      rw [lookupState_append_single]
      simp [Ne.symm hp]
    · intro r hr hid
      rcases List.mem_append.mp hr with hl | hrr
      · have := hwf.idsLt r hl
        exact absurd hid (Nat.ne_of_lt this)
      · simp at hrr
        rw [hrr]
  | some row =>
    simp only
    have hrmem := List.mem_of_find?_eq_some hf
    have hrpath : row.path = path := by simpa using List.find?_some hf
    have hgpath : ∀ r : FileRow,
        ((fun r : FileRow => if r.id = row.id then { r with mtime := mt, size := sz }
          else r) r).path = r.path := by
      intro r
      by_cases h : r.id = row.id <;> simp [h]
    have hgid : ∀ r : FileRow,
        ((fun r : FileRow => if r.id = row.id then { r with mtime := mt, size := sz }
          else r) r).id = r.id := by
      intro r
      by_cases h : r.id = row.id <;> simp [h]
    have hrid : ∀ r ∈ db.files, r.id = row.id → r = row :=
      fun r hr hid => nodup_map_inj (fun r => r.id) db.files hwf.idsNodup r hr row hrmem hid
    have hfix : ∀ r ∈ db.files, r.path ≠ path →
        (fun r : FileRow => if r.id = row.id then { r with mtime := mt, size := sz }
          else r) r = r := by
      intro r hr hrp
      have : ¬ r.id = row.id := by
        intro hid
        exact hrp (by rw [hrid r hr hid, hrpath])
      simp [this]
    have hspec := mark_map_spec db.files
      (fun r : FileRow => if r.id = row.id then { r with mtime := mt, size := sz } else r)
      path mt sz hgpath hwf.pathsNodup
      ⟨row, hrmem, hrpath, by simp, by simp⟩ hfix
    refine ⟨mapFilesWF db _ hgpath hgid hwf, hspec.1, hspec.2, ?_⟩
    · intro r hr hid
      obtain ⟨r0, hr0, rfl⟩ := List.mem_map.mp hr
      have : r0.id = row.id := by rw [← hgid r0]; exact hid
      rw [hgpath r0, hrid r0 hr0 this, hrpath]

theorem mark_generic_spec (db : Db) (fid : Nat) (p0 : PyStr) (mt sz : Int)
    (u : FileRow → FileRow)
    (hupath : ∀ r, (u r).path = r.path) (huid : ∀ r, (u r).id = r.id)
    (humt : ∀ r, (u r).mtime = mt) (husz : ∀ r, (u r).size = sz)
    (hwf : DbWF db)
    (hex : ∃ row ∈ db.files, row.id = fid ∧ row.path = p0)
    (hids : ∀ r ∈ db.files, r.id = fid → r.path = p0) :
    DbWF { db with files := db.files.map fun r => if r.id = fid then u r else r } ∧
      lookupState (db.files.map fun r => if r.id = fid then u r else r) p0 =
        some (mt, sz) ∧
      ∀ p, p ≠ p0 → lookupState (db.files.map fun r => if r.id = fid then u r else r) p =
        lookupState db.files p := by
  have hgpath : ∀ r : FileRow, ((fun r => if r.id = fid then u r else r) r).path = r.path := by
    intro r
    by_cases h : r.id = fid <;> simp [h, hupath]
  have hgid : ∀ r : FileRow, ((fun r => if r.id = fid then u r else r) r).id = r.id := by
    intro r
    by_cases h : r.id = fid <;> simp [h, huid]
  obtain ⟨row, hrow, hrid, hrpath⟩ := hex
  have hspec := mark_map_spec db.files (fun r => if r.id = fid then u r else r) p0 mt sz
    hgpath hwf.pathsNodup
    ⟨row, hrow, hrpath, by simp [hrid, humt], by simp [hrid, husz]⟩
    (by
      intro r hr hrp
      have : ¬ r.id = fid := fun hid => hrp (hids r hr hid)
      simp [this])
  exact ⟨mapFilesWF db _ hgpath hgid hwf, hspec.1, hspec.2⟩

theorem replace_functions_files (db : Db) (fid : Nat) (fs : List Function) :
    (replace_functions_for_file db fid fs).files = db.files ∧
      (replace_functions_for_file db fid fs).nextFileId = db.nextFileId := by
  unfold replace_functions_for_file
  split <;> exact ⟨rfl, rfl⟩

theorem mkFunctionRows_id_lt (fid : Nat) : ∀ (n : Nat) (fs : List Function)
    (f : FunctionRow), f ∈ mkFunctionRows fid n fs → f.id < n + fs.length := by
  intro n fs
  induction fs generalizing n with
  | nil => intro f hf; simp [mkFunctionRows] at hf
  | cons g gs ih =>
    intro f hf
    simp only [mkFunctionRows, List.mem_cons] at hf
    rcases hf with rfl | hf
    · simp only [List.length_cons]
      omega
    · have := ih (n + 1) f hf
      simp only [List.length_cons]
      omega

theorem replace_functions_wf (db : Db) (fid : Nat) (fs : List Function) (hwf : DbWF db) :
    DbWF (replace_functions_for_file db fid fs) := by
  unfold replace_functions_for_file
  split
  · exact ⟨hwf.pathsNodup, hwf.idsNodup, hwf.idsLt,
      fun f hf => hwf.funcIdsLt f (List.mem_of_mem_filter hf)⟩
  · refine ⟨hwf.pathsNodup, hwf.idsNodup, hwf.idsLt, ?_⟩
    intro f hf
    rcases List.mem_append.mp hf with hl | hr
    · have := hwf.funcIdsLt f (List.mem_of_mem_filter hl)
      show f.id < db.nextFunctionId + fs.length
      omega
    · exact mkFunctionRows_id_lt fid db.nextFunctionId fs f hr

theorem mark_file_error_spec (db : Db) (fid : Nat) (p0 : PyStr) (mt sz now : Int)
    (err : PyStr) (hwf : DbWF db)
    (hex : ∃ row ∈ db.files, row.id = fid ∧ row.path = p0)
    (hids : ∀ r ∈ db.files, r.id = fid → r.path = p0) :
    DbWF (mark_file_error db fid mt sz now err) ∧
      lookupState (mark_file_error db fid mt sz now err).files p0 = some (mt, sz) ∧
      ∀ p, p ≠ p0 → lookupState (mark_file_error db fid mt sz now err).files p =
        lookupState db.files p :=
  mark_generic_spec db fid p0 mt sz
    (fun x => { x with
      mtime := mt
      size := sz
      parsed_at := some now
      last_error := some err })
    (fun _ => rfl) (fun _ => rfl) (fun _ => rfl) (fun _ => rfl) hwf hex hids

theorem mark_file_parsed_spec (db : Db) (fid : Nat) (p0 : PyStr) (mt sz now : Int)
    (hwf : DbWF db)
    (hex : ∃ row ∈ db.files, row.id = fid ∧ row.path = p0)
    (hids : ∀ r ∈ db.files, r.id = fid → r.path = p0) :
    DbWF (mark_file_parsed db fid mt sz now) ∧
      lookupState (mark_file_parsed db fid mt sz now).files p0 = some (mt, sz) ∧
      ∀ p, p ≠ p0 → lookupState (mark_file_parsed db fid mt sz now).files p =
        lookupState db.files p :=
  mark_generic_spec db fid p0 mt sz
    (fun x => { x with
      mtime := mt
      size := sz
      parsed_at := some now
      last_error := none })
    (fun _ => rfl) (fun _ => rfl) (fun _ => rfl) (fun _ => rfl) hwf hex hids

theorem applyResult_spec (now : Int) (db : Db) (tr : Progress) (r : IndexResult)
    (hwf : DbWF db) :
    DbWF (applyResult now db tr r).1 ∧
      lookupState (applyResult now db tr r).1.files r.path = some (r.mtime, r.size) ∧
      ∀ p, p ≠ r.path → lookupState (applyResult now db tr r).1.files p =
        lookupState db.files p := by
  obtain ⟨hwf1, hlk1, hother1, hids1⟩ := get_or_create_file_spec db r.path r.mtime r.size hwf
  obtain ⟨row, hrow, hrid, hrpath⟩ := get_or_create_file_mem db r.path r.mtime r.size
  cases herr : pyTruthyStr r.error with
  | true =>
    have happ : (applyResult now db tr r).1 =
        mark_file_error (get_or_create_file db r.path r.mtime r.size).2
          (get_or_create_file db r.path r.mtime r.size).1 r.mtime r.size now
          (r.error.getD []) := by
      simp [applyResult, herr]
    have hspec := mark_file_error_spec (get_or_create_file db r.path r.mtime r.size).2
      (get_or_create_file db r.path r.mtime r.size).1 r.path r.mtime r.size now
      (r.error.getD []) hwf1 ⟨row, hrow, hrid, hrpath⟩ hids1
    rw [happ]
    refine ⟨hspec.1, hspec.2.1, ?_⟩
    intro p hp
    rw [hspec.2.2 p hp]
    exact hother1 p hp
  | false =>
    have happ : (applyResult now db tr r).1 =
        mark_file_parsed
          (replace_functions_for_file (get_or_create_file db r.path r.mtime r.size).2
            (get_or_create_file db r.path r.mtime r.size).1 r.functions)
          (get_or_create_file db r.path r.mtime r.size).1 r.mtime r.size now := by
      simp [applyResult, herr]
    have hfeq := replace_functions_files (get_or_create_file db r.path r.mtime r.size).2
      (get_or_create_file db r.path r.mtime r.size).1 r.functions
    have hwfR := replace_functions_wf (get_or_create_file db r.path r.mtime r.size).2
      (get_or_create_file db r.path r.mtime r.size).1 r.functions hwf1
    have hspec := mark_file_parsed_spec
      (replace_functions_for_file (get_or_create_file db r.path r.mtime r.size).2
        (get_or_create_file db r.path r.mtime r.size).1 r.functions)
      (get_or_create_file db r.path r.mtime r.size).1 r.path r.mtime r.size now
      hwfR (by rw [hfeq.1]; exact ⟨row, hrow, hrid, hrpath⟩)
      (by rw [hfeq.1]; exact hids1)
    rw [happ]
    refine ⟨hspec.1, hspec.2.1, ?_⟩
    intro p hp
    rw [hspec.2.2 p hp, hfeq.1]
    exact hother1 p hp

theorem writer_fold_untouched (now : Int) : ∀ (results : List IndexResult) (db : Db)
    (tr : Progress), DbWF db →
    DbWF (results.foldl (fun st r => applyResult now st.1 st.2 r) (db, tr)).1 ∧
      ∀ p, (∀ r ∈ results, r.path ≠ p) →
        lookupState (results.foldl (fun st r => applyResult now st.1 st.2 r)
          (db, tr)).1.files p = lookupState db.files p := by
  intro results
  induction results with
  | nil => intro db tr hwf; exact ⟨hwf, fun p _ => rfl⟩
  | cons r rest ih =>
    intro db tr hwf
    obtain ⟨hwf', hsame, hother⟩ := applyResult_spec now db tr r hwf
    have hfold : (r :: rest).foldl (fun st r => applyResult now st.1 st.2 r) (db, tr) =
        rest.foldl (fun st r => applyResult now st.1 st.2 r) (applyResult now db tr r) := rfl
    rw [hfold]
    have hpair : applyResult now db tr r =
        ((applyResult now db tr r).1, (applyResult now db tr r).2) := rfl
    rw [hpair]
    obtain ⟨hwfF, huntouched⟩ := ih (applyResult now db tr r).1 (applyResult now db tr r).2 hwf'
    refine ⟨hwfF, ?_⟩
    intro p hall
    rw [huntouched p fun x hx => hall x (List.mem_cons_of_mem _ hx)]
    exact hother p (Ne.symm (hall r (List.mem_cons_self _ _)))

theorem writer_fold_result (now : Int) : ∀ (results : List IndexResult) (db : Db)
    (tr : Progress) (r : IndexResult), DbWF db → r ∈ results →
    ((results.map fun x => x.path).Nodup) →
    lookupState (results.foldl (fun st r => applyResult now st.1 st.2 r)
      (db, tr)).1.files r.path = some (r.mtime, r.size) := by
  intro results
  induction results with
  | nil => intro db tr r _ hmem; cases hmem
  | cons x rest ih =>
    intro db tr r hwf hmem hnodup
    simp only [List.map_cons, List.nodup_cons] at hnodup
    obtain ⟨hwf', hsame, hother⟩ := applyResult_spec now db tr x hwf
    have hfold : (x :: rest).foldl (fun st r => applyResult now st.1 st.2 r) (db, tr) =
        rest.foldl (fun st r => applyResult now st.1 st.2 r) (applyResult now db tr x) := rfl
    rw [hfold]
    have hpair : applyResult now db tr x =
        ((applyResult now db tr x).1, (applyResult now db tr x).2) := rfl
    rw [hpair]
    rcases List.mem_cons.mp hmem with rfl | hmem'
    · obtain ⟨_, huntouched⟩ :=
        writer_fold_untouched now rest (applyResult now db tr r).1
          (applyResult now db tr r).2 hwf'
      rw [huntouched r.path ?_]
      · exact hsame
      · intro y hy hyp
        exact hnodup.1 (by rw [← hyp]; exact List.mem_map_of_mem _ hy)
    · exact ih (applyResult now db tr x).1 (applyResult now db tr x).2 r hwf' hmem' hnodup.2

/-- What `_discover_files` does with one file: skip it (wrong extension,
stat error, or unchanged `(mtime, size)`) or turn it into a queue task. -/
def entryTask (known : PyStr → Option (Int × Int)) (e : FsEntry) : Option FileTask :=
  if extOk e.fname then
    match e.stat with
    | some (mt, sz) => if known e.rpath = some (mt, sz) then none else some (e.rpath, mt, sz)
    | none => none
  else none

/-- The tasks an uncancelled walk enqueues, in order. -/
def expectedTasks (known : PyStr → Option (Int × Int)) (es : List FsEntry) :
    List FileTask :=
  es.filterMap (entryTask known)

/-- The resolved paths of the entries that pass the extension filter and
stat successfully — the files Discovery counts in `files_total`. -/
def validPathsOf (es : List FsEntry) : List PyStr :=
  es.filterMap fun e => if extOk e.fname && e.stat.isSome then some e.rpath else none

/-- All files of a walk, in walk order. -/
def allEntries (dirs : List WalkDir) : List FsEntry := dirs.flatMap fun d => d.files

/-- Tracker effect of skipping `n` unchanged files. -/
def addSkips (tr : Progress) (n : Nat) : Progress :=
  { tr with
      files_total := tr.files_total + n
      files_skipped := tr.files_skipped + n
      files_done := tr.files_done + n }

/-- How many entries of a directory pass the extension filter and stat. -/
def validCount (es : List FsEntry) : Nat :=
  (es.filter fun e => extOk e.fname && e.stat.isSome).length

theorem stepEntry_tasks (known : PyStr → Option (Int × Int)) (tr : Progress)
    (tasks : List FileTask) (e : FsEntry) :
    (stepEntry known (tr, tasks) e).2 = tasks ++ (entryTask known e).toList := by
  cases hext : extOk e.fname
  · simp [stepEntry, entryTask, hext]
  · cases hstat : e.stat with
    | none => simp [stepEntry, entryTask, hext, hstat]
    | some ms =>
      obtain ⟨mt, sz⟩ := ms
      by_cases hk : known e.rpath = some (mt, sz)
      · simp [stepEntry, entryTask, hext, hstat, hk]
      · simp [stepEntry, entryTask, hext, hstat, hk]

theorem discoverEntries_tasks (known : PyStr → Option (Int × Int)) :
    ∀ (es : List FsEntry) (c : Nat) (tr : Progress) (tasks : List FileTask),
    (discoverEntries known (fun _ => false) es c tr tasks).2.2 =
      tasks ++ expectedTasks known es := by
  intro es
  induction es with
  | nil => intro c tr tasks; simp [discoverEntries, expectedTasks]
  | cons e es ih =>
    intro c tr tasks
    show (discoverEntries known (fun _ => false) es (c + 1)
      (stepEntry known (tr, tasks) e).1 (stepEntry known (tr, tasks) e).2).2.2 = _
    rw [ih, stepEntry_tasks]
    rw [List.append_assoc]
    congr 1
    show (entryTask known e).toList ++ es.filterMap (entryTask known) = _
    cases h : entryTask known e <;> simp [expectedTasks, List.filterMap_cons, h]

theorem discoverDirs_tasks (known : PyStr → Option (Int × Int)) :
    ∀ (dirs : List WalkDir) (c : Nat) (tr : Progress) (tasks : List FileTask),
    (discoverDirs known (fun _ => false) dirs c tr tasks).2 =
      tasks ++ expectedTasks known (allEntries dirs) := by
  intro dirs
  induction dirs with
  | nil => intro c tr tasks; simp [discoverDirs, allEntries, expectedTasks]
  | cons d ds ih =>
    intro c tr tasks
    show (discoverDirs known (fun _ => false) ds _ _ _).2 = _
    rw [ih, discoverEntries_tasks]
    rw [List.append_assoc]
    congr 1
    simp [allEntries, expectedTasks, List.filterMap_append]

theorem stepEntry_skip (known : PyStr → Option (Int × Int)) (tr : Progress)
    (tasks : List FileTask) (e : FsEntry) (mt sz : Int)
    (hext : extOk e.fname = true) (hstat : e.stat = some (mt, sz))
    (hk : known e.rpath = some (mt, sz)) :
    stepEntry known (tr, tasks) e = (addSkips tr 1, tasks) := by
  simp [stepEntry, hext, hstat, hk, applyEv, addSkips]

theorem stepEntry_invalid (known : PyStr → Option (Int × Int)) (tr : Progress)
    (tasks : List FileTask) (e : FsEntry)
    (h : ¬ (extOk e.fname = true ∧ e.stat.isSome = true)) :
    stepEntry known (tr, tasks) e = (tr, tasks) := by
  cases hext : extOk e.fname
  · simp [stepEntry, hext]
  · cases hstat : e.stat with
    | none => simp [stepEntry, hext, hstat]
    | some ms => exact absurd ⟨hext, by simp [hstat]⟩ h

theorem addSkips_addSkips (tr : Progress) (m n : Nat) :
    addSkips (addSkips tr m) n = addSkips tr (m + n) := by
  simp [addSkips, Nat.add_assoc]

theorem addSkips_zero (tr : Progress) : addSkips tr 0 = tr := by
  simp [addSkips]

theorem discoverEntries_skipAll (known : PyStr → Option (Int × Int)) :
    ∀ (es : List FsEntry),
    (∀ e ∈ es, extOk e.fname = true → ∀ mt sz, e.stat = some (mt, sz) →
      known e.rpath = some (mt, sz)) →
    ∀ (c : Nat) (tr : Progress) (tasks : List FileTask),
    (discoverEntries known (fun _ => false) es c tr tasks).2 =
      (addSkips tr (validCount es), tasks) := by
  intro es
  induction es with
  | nil =>
    intro _ c tr tasks
    simp [discoverEntries, validCount, addSkips_zero]
  | cons e es ih =>
    intro hall c tr tasks
    have hall' : ∀ x ∈ es, extOk x.fname = true → ∀ mt sz, x.stat = some (mt, sz) →
        known x.rpath = some (mt, sz) :=
      fun x hx => hall x (List.mem_cons_of_mem _ hx)
    show (discoverEntries known (fun _ => false) es (c + 1)
      (stepEntry known (tr, tasks) e).1 (stepEntry known (tr, tasks) e).2).2 = _
    by_cases hval : extOk e.fname = true ∧ e.stat.isSome = true
    · obtain ⟨hext, hsome⟩ := hval
      obtain ⟨⟨mt, sz⟩, hstat⟩ := Option.isSome_iff_exists.mp hsome
      have hk := hall e (List.mem_cons_self _ _) hext mt sz hstat
      rw [stepEntry_skip known tr tasks e mt sz hext hstat hk]
      rw [ih hall' (c + 1) (addSkips tr 1) tasks]
      have hcount : validCount (e :: es) = 1 + validCount es := by
        simp [validCount, List.filter, hext, hsome, Nat.add_comm]
      rw [addSkips_addSkips, hcount]
    · rw [stepEntry_invalid known tr tasks e hval]
      rw [ih hall' (c + 1) tr tasks]
      have hcount : validCount (e :: es) = validCount es := by
        rcases Decidable.not_and_iff_or_not.mp hval with h | h
        · simp [validCount, List.filter, Bool.of_not_eq_true h]
        · simp [validCount, List.filter, Bool.of_not_eq_true h, Bool.and_comm]
      rw [hcount]

theorem discoverDirs_skipAll (known : PyStr → Option (Int × Int)) :
    ∀ (dirs : List WalkDir),
    (∀ e ∈ allEntries dirs, extOk e.fname = true → ∀ mt sz, e.stat = some (mt, sz) →
      known e.rpath = some (mt, sz)) →
    ∀ (c : Nat) (tr : Progress) (tasks : List FileTask),
    discoverDirs known (fun _ => false) dirs c tr tasks =
      (addSkips tr (validCount (allEntries dirs)), tasks) := by
  intro dirs
  induction dirs with
  | nil =>
    intro _ c tr tasks
    simp [discoverDirs, allEntries, validCount, addSkips_zero]
  | cons d ds ih =>
    intro hall c tr tasks
    have halld : ∀ e ∈ d.files, extOk e.fname = true → ∀ mt sz, e.stat = some (mt, sz) →
        known e.rpath = some (mt, sz) := by
      intro e he
      refine hall e ?_
      simp only [allEntries, List.mem_flatMap]
      exact ⟨d, List.mem_cons_self _ _, he⟩
    have halls : ∀ e ∈ allEntries ds, extOk e.fname = true → ∀ mt sz,
        e.stat = some (mt, sz) → known e.rpath = some (mt, sz) := by
      intro e he
      refine hall e ?_
      simp only [allEntries, List.mem_flatMap] at he ⊢
      obtain ⟨d', hd', he'⟩ := he
      exact ⟨d', List.mem_cons_of_mem _ hd', he'⟩
    show (discoverDirs known (fun _ => false) ds _ _ _) = _
    rw [discoverEntries_skipAll known d.files halld (c + 1) tr tasks]
    rw [ih halls]
    have : validCount (allEntries (d :: ds)) = validCount d.files + validCount (allEntries ds) := by
      simp [allEntries, validCount, List.filter_append]
    rw [addSkips_addSkips, this]

theorem validPathsOf_mem (es : List FsEntry) (e : FsEntry) (he : e ∈ es)
    (hext : extOk e.fname = true) (hsome : e.stat.isSome = true) :
    e.rpath ∈ validPathsOf es :=
  List.mem_filterMap.mpr ⟨e, he, by simp [hext, hsome]⟩

theorem expectedTasks_paths_sublist (known : PyStr → Option (Int × Int)) :
    ∀ (es : List FsEntry),
    ((expectedTasks known es).map fun t => t.1).Sublist (validPathsOf es) := by
  intro es
  induction es with
  | nil => simp [expectedTasks, validPathsOf]
  | cons e es ih =>
    cases hext : extOk e.fname with
    | false =>
      have h1 : expectedTasks known (e :: es) = expectedTasks known es := by
        simp [expectedTasks, List.filterMap_cons, entryTask, hext]
      have h2 : validPathsOf (e :: es) = validPathsOf es := by
        simp [validPathsOf, List.filterMap_cons, hext]
      rw [h1, h2]; exact ih
    | true =>
      cases hstat : e.stat with
      | none =>
        have h1 : expectedTasks known (e :: es) = expectedTasks known es := by
          simp [expectedTasks, List.filterMap_cons, entryTask, hext, hstat]
        have h2 : validPathsOf (e :: es) = validPathsOf es := by
          simp [validPathsOf, List.filterMap_cons, hext, hstat]
        rw [h1, h2]; exact ih
      | some ms =>
        obtain ⟨mt, sz⟩ := ms
        have h2 : validPathsOf (e :: es) = e.rpath :: validPathsOf es := by
          simp [validPathsOf, List.filterMap_cons, hext, hstat]
        by_cases hk : known e.rpath = some (mt, sz)
        · have h1 : expectedTasks known (e :: es) = expectedTasks known es := by
            simp [expectedTasks, List.filterMap_cons, entryTask, hext, hstat, hk]
          rw [h1, h2]
          exact ih.cons _
        · have h1 : expectedTasks known (e :: es) =
              (e.rpath, mt, sz) :: expectedTasks known es := by
            simp [expectedTasks, List.filterMap_cons, entryTask, hext, hstat, hk]
          rw [h1, h2, List.map_cons]
          exact ih.cons₂ _

theorem expectedTasks_not_skipped (known : PyStr → Option (Int × Int)) :
    ∀ (es : List FsEntry), (validPathsOf es).Nodup →
    ∀ e ∈ es, extOk e.fname = true → ∀ mt sz, e.stat = some (mt, sz) →
    known e.rpath = some (mt, sz) →
    ∀ t ∈ expectedTasks known es, t.1 ≠ e.rpath := by
  intro es
  induction es with
  | nil => intro _ e he; exact absurd he (List.not_mem_nil e)
  | cons x es ih =>
    intro hnd e he hext mt sz hstat hk t ht
    cases hxext : extOk x.fname with
    | false =>
      have h1 : expectedTasks known (x :: es) = expectedTasks known es := by
        simp [expectedTasks, List.filterMap_cons, entryTask, hxext]
      have h2 : validPathsOf (x :: es) = validPathsOf es := by
        simp [validPathsOf, List.filterMap_cons, hxext]
      rw [h2] at hnd; rw [h1] at ht
      rcases List.mem_cons.mp he with rfl | he'
      · rw [hext] at hxext; cases hxext
      · exact ih hnd e he' hext mt sz hstat hk t ht
    | true =>
      cases hxstat : x.stat with
      | none =>
        have h1 : expectedTasks known (x :: es) = expectedTasks known es := by
          simp [expectedTasks, List.filterMap_cons, entryTask, hxext, hxstat]
        have h2 : validPathsOf (x :: es) = validPathsOf es := by
          simp [validPathsOf, List.filterMap_cons, hxext, hxstat]
        rw [h2] at hnd; rw [h1] at ht
        rcases List.mem_cons.mp he with rfl | he'
        · rw [hstat] at hxstat; cases hxstat
        · exact ih hnd e he' hext mt sz hstat hk t ht
      | some ms =>
        obtain ⟨mx, sx⟩ := ms
        have h2 : validPathsOf (x :: es) = x.rpath :: validPathsOf es := by
          simp [validPathsOf, List.filterMap_cons, hxext, hxstat]
        rw [h2] at hnd
        have hhead : x.rpath ∉ validPathsOf es := (List.nodup_cons.mp hnd).1
        have htail : (validPathsOf es).Nodup := (List.nodup_cons.mp hnd).2
        rcases List.mem_cons.mp he with rfl | he'
        · have h1 : expectedTasks known (e :: es) = expectedTasks known es := by
            simp [expectedTasks, List.filterMap_cons, entryTask, hext, hstat, hk]
          rw [h1] at ht
          have hmemv : t.1 ∈ validPathsOf es :=
            (expectedTasks_paths_sublist known es).subset
              (List.mem_map_of_mem _ ht)
          intro heq
          rw [heq] at hmemv
          exact hhead hmemv
        · by_cases hxk : known x.rpath = some (mx, sx)
          · have h1 : expectedTasks known (x :: es) = expectedTasks known es := by
              simp [expectedTasks, List.filterMap_cons, entryTask, hxext, hxstat, hxk]
            rw [h1] at ht
            exact ih htail e he' hext mt sz hstat hk t ht
          · have h1 : expectedTasks known (x :: es) =
                (x.rpath, mx, sx) :: expectedTasks known es := by
              simp [expectedTasks, List.filterMap_cons, entryTask, hxext, hxstat, hxk]
            rw [h1] at ht
            rcases List.mem_cons.mp ht with rfl | ht'
            · have hmemv : e.rpath ∈ validPathsOf es :=
                validPathsOf_mem es e he' hext (by simp [hstat])
              intro heq
              have heq' : x.rpath = e.rpath := heq
              exact hhead (heq' ▸ hmemv)
            · exact ih htail e he' hext mt sz hstat hk t ht'

theorem expectedTasks_mem_of_changed (known : PyStr → Option (Int × Int))
    (es : List FsEntry) (e : FsEntry) (he : e ∈ es) (mt sz : Int)
    (hext : extOk e.fname = true) (hstat : e.stat = some (mt, sz))
    (hk : ¬ known e.rpath = some (mt, sz)) :
    (e.rpath, mt, sz) ∈ expectedTasks known es :=
  List.mem_filterMap.mpr ⟨e, he, by simp [entryTask, hext, hstat, hk]⟩

/-- The result a worker builds for one task when the libclang index is
healthy and cancellation never fires. -/
def taskResult (parseFn : PyStr → Int → Int → List Function × Option PyStr)
    (t : FileTask) : IndexResult :=
  ⟨t.1, t.2.1, t.2.2, (parseFn t.1 t.2.1 t.2.2).1, (parseFn t.1 t.2.1 t.2.2).2⟩

/-- `run_index` with one worker and no cancellation: read the snapshot
`iter_file_states`, set the tracker running with a start time, run
Discovery, the worker and the Writer to completion, then clear the running
flag and stamp the end time. -/
def runIndex (parseFn : PyStr → Int → Int → List Function × Option PyStr)
    (now fin : Int) (db : Db) (dirs : List WalkDir) : Db × Progress :=
  let known := iterFileStates db
  let tr0 := { initProgress with
    running := true
    canceled := false
    start_time := some now
    end_time := none }
  let q := discoverFiles 1 known (fun _ => false) dirs tr0
  let rs := workerLoop parseFn none (fun _ => false) 0 q.1
  let w := writerLoop now 1 0 db q.2 rs
  (w.1, { w.2.1 with
    running := false
    canceled := false
    end_time := some fin })

theorem workerLoop_run (parseFn : PyStr → Int → Int → List Function × Option PyStr) :
    ∀ (tasks : List FileTask) (c : Nat),
    workerLoop parseFn none (fun _ => false) c (tasks.map some ++ [none]) =
      (tasks.map (taskResult parseFn)).map some ++ [none] := by
  intro tasks
  induction tasks with
  | nil => intro c; rfl
  | cons t ts ih =>
    intro c
    obtain ⟨p, mt, sz⟩ := t
    show workerLoop parseFn none (fun _ => false) c
      (some (p, mt, sz) :: (ts.map some ++ [none])) = _
    rw [show workerLoop parseFn none (fun _ => false) c
        (some (p, mt, sz) :: (ts.map some ++ [none])) =
        some ⟨p, mt, sz, (parseFn p mt sz).1, (parseFn p mt sz).2⟩ ::
          workerLoop parseFn none (fun _ => false) (c + 1) (ts.map some ++ [none])
      from by simp [workerLoop]]
    rw [ih (c + 1)]
    rfl

theorem writerLoop_run (now : Int) :
    ∀ (rs : List IndexResult) (db : Db) (tr : Progress),
    writerLoop now 1 0 db tr (rs.map some ++ [none]) =
      ((rs.foldl (fun st r => applyResult now st.1 st.2 r) (db, tr)).1,
        (rs.foldl (fun st r => applyResult now st.1 st.2 r) (db, tr)).2, []) := by
  intro rs
  induction rs with
  | nil => intro db tr; rfl
  | cons r rest ih =>
    intro db tr
    show writerLoop now 1 0 db tr (some r :: (rest.map some ++ [none])) = _
    rw [show writerLoop now 1 0 db tr (some r :: (rest.map some ++ [none])) =
        writerLoop now 1 0 (applyResult now db tr r).1 (applyResult now db tr r).2
          (rest.map some ++ [none])
      from by simp [writerLoop]]
    rw [ih (applyResult now db tr r).1 (applyResult now db tr r).2]
    rfl

theorem discoverFiles_one (known : PyStr → Option (Int × Int)) (dirs : List WalkDir)
    (tr0 : Progress) :
    discoverFiles 1 known (fun _ => false) dirs tr0 =
      ((expectedTasks known (allEntries dirs)).map some ++ [none],
        (discoverDirs known (fun _ => false) dirs 0 tr0 []).1) := by
  simp only [discoverFiles]
  rw [discoverDirs_tasks known dirs 0 tr0 []]
  simp

theorem runIndex_eq (parseFn : PyStr → Int → Int → List Function × Option PyStr)
    (now fin : Int) (db : Db) (dirs : List WalkDir) :
    runIndex parseFn now fin db dirs =
      ((((expectedTasks (iterFileStates db) (allEntries dirs)).map
            (taskResult parseFn)).foldl (fun st r => applyResult now st.1 st.2 r)
          (db, (discoverDirs (iterFileStates db) (fun _ => false) dirs 0
            { initProgress with
                running := true
                canceled := false
                start_time := some now
                end_time := none } []).1)).1,
        { (((expectedTasks (iterFileStates db) (allEntries dirs)).map
              (taskResult parseFn)).foldl (fun st r => applyResult now st.1 st.2 r)
            (db, (discoverDirs (iterFileStates db) (fun _ => false) dirs 0
              { initProgress with
                  running := true
                  canceled := false
                  start_time := some now
                  end_time := none } []).1)).2 with
            running := false
            canceled := false
            end_time := some fin }) := by
  simp only [runIndex, discoverFiles_one, workerLoop_run, writerLoop_run]

theorem runIndex_states (parseFn : PyStr → Int → Int → List Function × Option PyStr)
    (now fin : Int) (db : Db) (dirs : List WalkDir) (hwf : DbWF db)
    (hnd : (validPathsOf (allEntries dirs)).Nodup) :
    ∀ e ∈ allEntries dirs, extOk e.fname = true → ∀ mt sz, e.stat = some (mt, sz) →
      iterFileStates (runIndex parseFn now fin db dirs).1 e.rpath = some (mt, sz) := by
  intro e he hext mt sz hstat
  rw [runIndex_eq]
  set known := iterFileStates db with hknown
  set tasks := expectedTasks known (allEntries dirs) with htasks
  set results := tasks.map (taskResult parseFn) with hresults
  set trD := (discoverDirs known (fun _ => false) dirs 0
    { initProgress with
        running := true
        canceled := false
        start_time := some now
        end_time := none } []).1 with htrD
  have hpaths : (results.map fun x => x.path) = tasks.map fun t => t.1 := by
    rw [hresults, List.map_map]; rfl
  have hndres : (results.map fun x => x.path).Nodup := by
    rw [hpaths]
    exact (expectedTasks_paths_sublist known (allEntries dirs)).nodup hnd
  by_cases hk : known e.rpath = some (mt, sz)
  · have hnot : ∀ t ∈ tasks, t.1 ≠ e.rpath :=
      expectedTasks_not_skipped known (allEntries dirs) hnd e he hext mt sz hstat hk
    have hnotr : ∀ r ∈ results, r.path ≠ e.rpath := by
      intro r hr
      obtain ⟨t, ht, rfl⟩ := List.mem_map.mp hr
      exact hnot t ht
    obtain ⟨_, huntouched⟩ := writer_fold_untouched now results db trD hwf
    show lookupState _ e.rpath = some (mt, sz)
    rw [huntouched e.rpath hnotr]
    exact hk
  · have htask : (e.rpath, mt, sz) ∈ tasks :=
      expectedTasks_mem_of_changed known (allEntries dirs) e he mt sz hext hstat hk
    have hr : taskResult parseFn (e.rpath, mt, sz) ∈ results :=
      List.mem_map_of_mem _ htask
    exact writer_fold_result now results db trD (taskResult parseFn (e.rpath, mt, sz))
      hwf hr hndres

theorem runIndex_twice_counters
    (parseFn : PyStr → Int → Int → List Function × Option PyStr)
    (now1 fin1 now2 fin2 : Int) (db0 : Db) (dirs : List WalkDir) (hwf : DbWF db0)
    (hnd : (validPathsOf (allEntries dirs)).Nodup) :
    (runIndex parseFn now2 fin2 (runIndex parseFn now1 fin1 db0 dirs).1 dirs).2 =
      { addSkips { initProgress with
            running := true
            canceled := false
            start_time := some now2
            end_time := none } (validCount (allEntries dirs)) with
          running := false
          canceled := false
          end_time := some fin2 } := by
  set db1 := (runIndex parseFn now1 fin1 db0 dirs).1 with hdb1
  have hall := runIndex_states parseFn now1 fin1 db0 dirs hwf hnd
  have hdisc := discoverDirs_skipAll (iterFileStates db1) dirs hall 0
    { initProgress with
        running := true
        canceled := false
        start_time := some now2
        end_time := none } []
  have htasks2 : expectedTasks (iterFileStates db1) (allEntries dirs) = [] := by
    have h1 := discoverDirs_tasks (iterFileStates db1) dirs 0
      { initProgress with
          running := true
          canceled := false
          start_time := some now2
          end_time := none } []
    rw [hdisc] at h1
    simpa using h1.symm
  rw [runIndex_eq parseFn now2 fin2 db1 dirs, htasks2, hdisc]
  simp

/-- C3: a file whose current `(mtime, size)` equals the previously-known
snapshot value makes Discovery count `files_skipped` and `files_done` (and
`files_total`) without enqueueing it; consequently a second run of the
indexer over an unchanged tree — from a well-formed store, with distinct
resolved paths — ends with `files_skipped == files_total` and
`files_indexed == 0`. -/
theorem discovery_skip_and_second_run :
    (∀ (known : PyStr → Option (Int × Int)) (tr : Progress) (tasks : List FileTask)
        (e : FsEntry) (mt sz : Int),
        extOk e.fname = true → e.stat = some (mt, sz) → known e.rpath = some (mt, sz) →
        stepEntry known (tr, tasks) e =
          ({ tr with
              files_total := tr.files_total + 1
              files_skipped := tr.files_skipped + 1
              files_done := tr.files_done + 1 }, tasks)) ∧
      ∀ (parseFn : PyStr → Int → Int → List Function × Option PyStr)
        (now1 fin1 now2 fin2 : Int) (db0 : Db) (dirs : List WalkDir),
        DbWF db0 → (validPathsOf (allEntries dirs)).Nodup →
        ((runIndex parseFn now2 fin2
              (runIndex parseFn now1 fin1 db0 dirs).1 dirs).2.files_skipped =
            (runIndex parseFn now2 fin2
              (runIndex parseFn now1 fin1 db0 dirs).1 dirs).2.files_total ∧
          (runIndex parseFn now2 fin2
            (runIndex parseFn now1 fin1 db0 dirs).1 dirs).2.files_indexed = 0) := by
  constructor
  · intro known tr tasks e mt sz hext hstat hk
    rw [stepEntry_skip known tr tasks e mt sz hext hstat hk]
    rfl
  · intro parseFn now1 fin1 now2 fin2 db0 dirs hwf hnd
    rw [runIndex_twice_counters parseFn now1 fin1 now2 fin2 db0 dirs hwf hnd]
    simp [addSkips, initProgress]

/-- Witness for `discovery_skip_and_second_run`: one `.c` file with an
unchanged `(mtime, size)` is skipped and not enqueued, and re-running the
indexer over a one-file tree ends the second run fully skipped. -/
theorem discovery_skip_and_second_run_witness :
    (stepEntry (fun _ => some (1, 10)) (initProgress, [])
        ⟨['a', '.', 'c'], ['p'], some (1, 10)⟩ =
      ({ initProgress with
          files_total := 1
          files_skipped := 1
          files_done := 1 }, [])) ∧
      ((runIndex (fun _ _ _ => ([], none)) 2 3
            (runIndex (fun _ _ _ => ([], none)) 0 1 ⟨[], [], 0, 0⟩
              [⟨[⟨['a', '.', 'c'], ['p'], some (1, 10)⟩]⟩]).1
            [⟨[⟨['a', '.', 'c'], ['p'], some (1, 10)⟩]⟩]).2.files_skipped =
          (runIndex (fun _ _ _ => ([], none)) 2 3
            (runIndex (fun _ _ _ => ([], none)) 0 1 ⟨[], [], 0, 0⟩
              [⟨[⟨['a', '.', 'c'], ['p'], some (1, 10)⟩]⟩]).1
            [⟨[⟨['a', '.', 'c'], ['p'], some (1, 10)⟩]⟩]).2.files_total ∧
        (runIndex (fun _ _ _ => ([], none)) 2 3
          (runIndex (fun _ _ _ => ([], none)) 0 1 ⟨[], [], 0, 0⟩
            [⟨[⟨['a', '.', 'c'], ['p'], some (1, 10)⟩]⟩]).1
          [⟨[⟨['a', '.', 'c'], ['p'], some (1, 10)⟩]⟩]).2.files_indexed = 0) := by
  constructor
  · exact discovery_skip_and_second_run.1 (fun _ => some (1, 10)) initProgress []
      ⟨['a', '.', 'c'], ['p'], some (1, 10)⟩ 1 10 (by decide) rfl rfl
  · exact discovery_skip_and_second_run.2 (fun _ _ _ => ([], none)) 0 1 2 3
      ⟨[], [], 0, 0⟩ [⟨[⟨['a', '.', 'c'], ['p'], some (1, 10)⟩]⟩]
      (by constructor <;> simp) (by decide)
